import Mathlib

/-!
Shallow embedding of the nobject-rs two-stage parsing pipeline for wavefront
OBJ/MTL content, and proofs about the claims of its specification.

Sources embedded:
- src/tokenizer/obj.rs and src/tokenizer/mtl.rs (character-level tokenizers,
  including the shared numeric lexer of src/tokenizer/mod.rs),
- src/model.rs (geometry reducer: model::parse and its directive parsers),
- src/material.rs (material reducer: material::parse, option runs, maps),
- src/lib.rs (load_obj / load_mtl, get_on_off_from_str and token accessors).

Modelling conventions:
- Rust `f32` payloads are modelled as exact rationals; no claim in scope
  depends on binary floating-point rounding, and numeric values in all
  concrete inputs used below are exactly representable.
- `HashMap<String, _>` is modelled as an association list with
  insert-overwrite semantics; claims only observe the maps through keyed
  lookup (`mapGet`), never through iteration order.
- nom's error payloads (the descriptive error strings) are abstracted:
  error enums keep their constructors but drop the message text.
-/

namespace NObj

/-- Tokens of both formats, mirroring `Token` of src/tokenizer/mod.rs.
`Ignore` is the internal marker for comments and whitespace that the
tokenizer fold filters out. -/
inductive Tok
  | Ignore
  | Str (s : String)
  | FloatT (q : ℚ)
  | IntT (n : Int)
  | Slash
  | Vertex
  | VertexNormal
  | VertexTexture
  | VertexParam
  | Face
  | Point
  | Line
  | MaterialLib
  | UseMaterial
  | Object
  | Group
  | Smoothing
  | Bevel
  | CInterp
  | DInterp
  | Lod
  | ShadowObj
  | TraceObj
  | TextureMapLib
  | UseTextureMap
  | Spectral
  | Xyz
  | NewMaterial
  | AmbientColor
  | DiffuseColor
  | SpecularColor
  | EmissiveCoefficient
  | SpecularExponent
  | Disolved
  | Halo
  | Transparancy
  | TransmissionFactor
  | Sharpness
  | IndexOfRefraction
  | IlluminationModel
  | TextureMapAmbient
  | TextureMapDiffuse
  | TextureMapSpecular
  | TextureMapShininess
  | TextureMapDisolved
  | AntiAliasMap
  | DisplacementMap
  | Decal
  | BumpMapT
  | ReflectionMapT
  | ReflectionType
  | OptionBlendU
  | OptionBlendV
  | OptionBumpMultiplier
  | OptionBoost
  | OptionColorCorrect
  | OptionClamp
  | OptionIMFChan
  | OptionRange
  | OptionOffset
  | OptionScale
  | OptionTurbulence
  | OptionTextureResolution

/-- Injective encoding of `Tok` (tag plus the three possible payloads), used
to decide token equality through a linear-size retraction instead of a
quadratic two-scrutinee matcher. -/
def Tok.enc : Tok → Nat × String × ℚ × Int
  | .Ignore => (0, (""), 0, 0)
  | .Str s => (1, s, 0, 0)
  | .FloatT q => (2, (""), q, 0)
  | .IntT n => (3, (""), 0, n)
  | .Slash => (4, (""), 0, 0)
  | .Vertex => (5, (""), 0, 0)
  | .VertexNormal => (6, (""), 0, 0)
  | .VertexTexture => (7, (""), 0, 0)
  | .VertexParam => (8, (""), 0, 0)
  | .Face => (9, (""), 0, 0)
  | .Point => (10, (""), 0, 0)
  | .Line => (11, (""), 0, 0)
  | .MaterialLib => (12, (""), 0, 0)
  | .UseMaterial => (13, (""), 0, 0)
  | .Object => (14, (""), 0, 0)
  | .Group => (15, (""), 0, 0)
  | .Smoothing => (16, (""), 0, 0)
  | .Bevel => (17, (""), 0, 0)
  | .CInterp => (18, (""), 0, 0)
  | .DInterp => (19, (""), 0, 0)
  | .Lod => (20, (""), 0, 0)
  | .ShadowObj => (21, (""), 0, 0)
  | .TraceObj => (22, (""), 0, 0)
  | .TextureMapLib => (23, (""), 0, 0)
  | .UseTextureMap => (24, (""), 0, 0)
  | .Spectral => (25, (""), 0, 0)
  | .Xyz => (26, (""), 0, 0)
  | .NewMaterial => (27, (""), 0, 0)
  | .AmbientColor => (28, (""), 0, 0)
  | .DiffuseColor => (29, (""), 0, 0)
  | .SpecularColor => (30, (""), 0, 0)
  | .EmissiveCoefficient => (31, (""), 0, 0)
  | .SpecularExponent => (32, (""), 0, 0)
  | .Disolved => (33, (""), 0, 0)
  | .Halo => (34, (""), 0, 0)
  | .Transparancy => (35, (""), 0, 0)
  | .TransmissionFactor => (36, (""), 0, 0)
  | .Sharpness => (37, (""), 0, 0)
  | .IndexOfRefraction => (38, (""), 0, 0)
  | .IlluminationModel => (39, (""), 0, 0)
  | .TextureMapAmbient => (40, (""), 0, 0)
  | .TextureMapDiffuse => (41, (""), 0, 0)
  | .TextureMapSpecular => (42, (""), 0, 0)
  | .TextureMapShininess => (43, (""), 0, 0)
  | .TextureMapDisolved => (44, (""), 0, 0)
  | .AntiAliasMap => (45, (""), 0, 0)
  | .DisplacementMap => (46, (""), 0, 0)
  | .Decal => (47, (""), 0, 0)
  | .BumpMapT => (48, (""), 0, 0)
  | .ReflectionMapT => (49, (""), 0, 0)
  | .ReflectionType => (50, (""), 0, 0)
  | .OptionBlendU => (51, (""), 0, 0)
  | .OptionBlendV => (52, (""), 0, 0)
  | .OptionBumpMultiplier => (53, (""), 0, 0)
  | .OptionBoost => (54, (""), 0, 0)
  | .OptionColorCorrect => (55, (""), 0, 0)
  | .OptionClamp => (56, (""), 0, 0)
  | .OptionIMFChan => (57, (""), 0, 0)
  | .OptionRange => (58, (""), 0, 0)
  | .OptionOffset => (59, (""), 0, 0)
  | .OptionScale => (60, (""), 0, 0)
  | .OptionTurbulence => (61, (""), 0, 0)
  | .OptionTextureResolution => (62, (""), 0, 0)

/-- Retraction of `Tok.enc`. -/
def Tok.dec (p : Nat × String × ℚ × Int) : Tok :=
  match p.1 with
  | 0 => .Ignore
  | 1 => .Str p.2.1
  | 2 => .FloatT p.2.2.1
  | 3 => .IntT p.2.2.2
  | 4 => .Slash
  | 5 => .Vertex
  | 6 => .VertexNormal
  | 7 => .VertexTexture
  | 8 => .VertexParam
  | 9 => .Face
  | 10 => .Point
  | 11 => .Line
  | 12 => .MaterialLib
  | 13 => .UseMaterial
  | 14 => .Object
  | 15 => .Group
  | 16 => .Smoothing
  | 17 => .Bevel
  | 18 => .CInterp
  | 19 => .DInterp
  | 20 => .Lod
  | 21 => .ShadowObj
  | 22 => .TraceObj
  | 23 => .TextureMapLib
  | 24 => .UseTextureMap
  | 25 => .Spectral
  | 26 => .Xyz
  | 27 => .NewMaterial
  | 28 => .AmbientColor
  | 29 => .DiffuseColor
  | 30 => .SpecularColor
  | 31 => .EmissiveCoefficient
  | 32 => .SpecularExponent
  | 33 => .Disolved
  | 34 => .Halo
  | 35 => .Transparancy
  | 36 => .TransmissionFactor
  | 37 => .Sharpness
  | 38 => .IndexOfRefraction
  | 39 => .IlluminationModel
  | 40 => .TextureMapAmbient
  | 41 => .TextureMapDiffuse
  | 42 => .TextureMapSpecular
  | 43 => .TextureMapShininess
  | 44 => .TextureMapDisolved
  | 45 => .AntiAliasMap
  | 46 => .DisplacementMap
  | 47 => .Decal
  | 48 => .BumpMapT
  | 49 => .ReflectionMapT
  | 50 => .ReflectionType
  | 51 => .OptionBlendU
  | 52 => .OptionBlendV
  | 53 => .OptionBumpMultiplier
  | 54 => .OptionBoost
  | 55 => .OptionColorCorrect
  | 56 => .OptionClamp
  | 57 => .OptionIMFChan
  | 58 => .OptionRange
  | 59 => .OptionOffset
  | 60 => .OptionScale
  | 61 => .OptionTurbulence
  | _ => .OptionTextureResolution

theorem Tok.dec_enc (t : Tok) : Tok.dec (Tok.enc t) = t := by
  cases t <;> rfl

instance : DecidableEq Tok := fun a b =>
  if h : Tok.enc a = Tok.enc b then
    .isTrue (by rw [← Tok.dec_enc a, ← Tok.dec_enc b, h])
  else
    .isFalse (fun hh => h (by rw [hh]))

/-- Association-list model of `HashMap<String, α>`; observed only via keyed
lookup, so iteration order is irrelevant. -/
abbrev SMap (α : Type) : Type := List (String × α)

/-- Keyed lookup, modelling `HashMap::get` / indexing. -/
def mapGet {α : Type} : SMap α → String → Option α
  | [], _ => none
  | (k, v) :: rest, k2 => if k = k2 then some v else mapGet rest k2

/-- Insert-overwrite, modelling `HashMap::insert`. -/
def mapInsert {α : Type} : SMap α → String → α → SMap α
  | [], k, v => [(k, v)]
  | (k1, v1) :: rest, k, v =>
    if k1 = k then (k1, v) :: rest else (k1, v1) :: mapInsert rest k v

/-- Modelling `HashMap::entry(k).or_insert(d)` followed by mutating the entry
with `f`: if the key is present its value is replaced by `f` of it, otherwise
`f d` is inserted. -/
def mapAdjust {α : Type} : SMap α → String → (α → α) → α → SMap α
  | [], k, f, d => [(k, f d)]
  | (k1, v1) :: rest, k, f, d =>
    if k1 = k then (k1, f v1) :: rest else (k1, v1) :: mapAdjust rest k f d

theorem mapGet_mapInsert {α : Type} (m : SMap α) (k k2 : String) (v : α) :
    mapGet (mapInsert m k v) k2 = if k = k2 then some v else mapGet m k2 := by
  induction m with
  | nil => simp [mapInsert, mapGet]
  | cons p rest ih =>
    obtain ⟨k1, v1⟩ := p
    by_cases h1 : k1 = k
    · subst h1
      by_cases h2 : k1 = k2 <;> simp [mapInsert, mapGet, h2]
    · by_cases h2 : k1 = k2
      · subst h2
        simp [mapInsert, mapGet, h1, Ne.symm h1]
      · simp [mapInsert, mapGet, h1, h2, ih]

theorem mapGet_mapAdjust {α : Type} (m : SMap α) (k k2 : String) (f : α → α) (d : α) :
    mapGet (mapAdjust m k f d) k2 =
      if k = k2 then some (f ((mapGet m k).getD d)) else mapGet m k2 := by
  induction m with
  | nil => simp [mapAdjust, mapGet]
  | cons p rest ih =>
    obtain ⟨k1, v1⟩ := p
    by_cases h1 : k1 = k
    · subst h1
      by_cases h2 : k1 = k2 <;> simp [mapAdjust, mapGet, h2]
    · by_cases h2 : k1 = k2
      · subst h2
        simp [mapAdjust, mapGet, h1, Ne.symm h1]
      · simp [mapAdjust, mapGet, h1, h2, ih]

/-- Vertex record of src/model.rs (`Vertex`); the w component is optional. -/
structure Vertex where
  x : ℚ
  y : ℚ
  z : ℚ
  w : Option ℚ := none
deriving DecidableEq, Repr

/-- Normal record of src/model.rs (`Normal`). -/
structure Normal where
  x : ℚ
  y : ℚ
  z : ℚ
deriving DecidableEq, Repr

/-- Texture-coordinate record of src/model.rs (`Texture`). -/
structure Texture where
  u : ℚ
  v : Option ℚ := none
  w : Option ℚ := none
deriving DecidableEq, Repr

/-- Per-group settings record of src/model.rs (`Group`). -/
structure Group where
  material_name : String := ""
  bevel : Bool := false
  c_interp : Bool := false
  d_interp : Bool := false
  lod : Nat := 0
  texture_map : Option String := none
deriving DecidableEq, Repr

/-- The all-default group settings (`Group::default()`). -/
def G0 : Group := {}

/-- One slash-separated element of a face directive (`FaceElement`); the
indices are stored exactly as written, 1-based. -/
structure FaceElement where
  vertex_index : Int
  texture_index : Option Int := none
  normal_index : Option Int := none
deriving DecidableEq, Repr

/-- A face record (`Face`): its elements plus the smoothing-group id stamped
on it by the reducer. -/
structure Face where
  elements : List FaceElement
  smoothing_group : Int := 0
deriving DecidableEq, Repr

/-- One element of a line directive (`LineElement`). -/
structure LineElement where
  vertex_index : Int
  texture_index : Option Int := none
deriving DecidableEq, Repr

/-- A line record (`Line`). -/
structure Line where
  elements : List LineElement
deriving DecidableEq, Repr

/-- A point record (`Point`). -/
structure Point where
  elements : List Int
deriving DecidableEq, Repr

/-- The geometry parse result (`Model` of src/model.rs), including the two
carried state fields that the Rust struct keeps private. -/
structure Model where
  vertices : List Vertex := []
  normals : List Normal := []
  textures : List Texture := []
  faces : SMap (List Face) := []
  lines : SMap (List Line) := []
  points : SMap (List Point) := []
  groups : SMap Group := []
  material_libs : List String := []
  texture_libs : List String := []
  shadow_obj : Option String := none
  trace_obj : Option String := none
  current_group : List String := [("default")]
  current_smoothing_group : Int := 0
deriving DecidableEq, Repr

/-- `Model::default()`: the groups map starts with a "default" entry and the
active group set is `{"default"}`. -/
def M0 : Model := { groups := [(("default"), G0)] }

/-! Character-level tokenizers (src/tokenizer/obj.rs, src/tokenizer/mtl.rs,
and the numeric lexer of src/tokenizer/mod.rs). Input is a `List Char`. -/

/-- nom's `multispace` character class: space, tab, carriage return, line feed. -/
def isSpc (c : Char) : Bool := c = ' ' ∨ c = '\t' ∨ c = '\r' ∨ c = '\n'

/-- ASCII lower-casing, as used by nom's `tag_no_case`. -/
def lowChar (c : Char) : Char :=
  if 'A' ≤ c ∧ c ≤ 'Z' then Char.ofNat (c.toNat + 32) else c

/-- Modelling `tag_no_case(pat)`: consume `pat` ASCII-case-insensitively from
the front of the input, returning the remainder on success. -/
def matchNoCase : List Char → List Char → Option (List Char)
  | [], s => some s
  | _ :: _, [] => none
  | p :: ps, c :: cs => if lowChar p = lowChar c then matchNoCase ps cs else none

/-- Modelling `alt` over a table of `tag_no_case` keyword patterns: the first
pattern that matches wins (later table entries are not retried once a match
is found, mirroring nom's committed `alt` inside `delimited`). -/
def firstKw : List (List Char × Tok) → List Char → Option (Tok × List Char)
  | [], _ => none
  | (kw, tk) :: tbl, s =>
    match matchNoCase kw s with
    | some r => some (tk, r)
    | none => firstKw tbl s

/-- Modelling `delimited(multispace0, alt[tags] -> kw_map, multispace1)`:
leading whitespace, the keyword table, then at least one whitespace character
(consumed maximally). -/
def kwStep (tbl : List (List Char × Tok)) (s : List Char) : Option (Tok × List Char) :=
  match firstKw tbl (s.dropWhile isSpc) with
  | some (tk, c :: r) => if isSpc c then some (tk, (c :: r).dropWhile isSpc) else none
  | _ => none

/-- Optional leading sign; returns whether it was a minus, plus the rest. -/
def signPart : List Char → Bool × List Char
  | [] => (false, [])
  | c :: r =>
    if c = '+' then (false, r) else if c = '-' then (true, r) else (false, c :: r)

/-- Maximal run of ASCII digits (nom `digit1` folded to a single run). -/
def spanDigits (s : List Char) : List Char × List Char :=
  (s.takeWhile Char.isDigit, s.dropWhile Char.isDigit)

/-- Numeric value of a digit run. -/
def digitsNat (d : List Char) : Nat :=
  d.foldl (fun a c => a * 10 + (c.toNat - ('0').toNat)) 0

/-- Value of `digits.parse::<i32>().unwrap_or_default()` with the sign applied
afterwards: out-of-range magnitudes collapse to 0 before negation. -/
def intVal (neg : Bool) (d : List Char) : Int :=
  let n := digitsNat d
  let v : Int := if n ≤ 2147483647 then (n : Int) else 0
  if neg then -v else v

/-- Exponent part after the `e`/`E`: optional sign then at least one digit;
on failure nothing is consumed (the caller's `opt` backtracks to `orig`). -/
def expAfter (r orig : List Char) : Option Int × List Char :=
  if (spanDigits (signPart r).2).1 = [] then (none, orig)
  else
    (some (if (signPart r).1 then -(digitsNat (spanDigits (signPart r).2).1 : Int)
           else (digitsNat (spanDigits (signPart r).2).1 : Int)),
     (spanDigits (signPart r).2).2)

/-- Modelling `opt((e|E, opt(sign), digit1))` of the float lexer. -/
def expPart (s : List Char) : Option Int × List Char :=
  match s with
  | [] => (none, [])
  | c :: r => if c = 'e' ∨ c = 'E' then expAfter r (c :: r) else (none, c :: r)

/-- Value of the assembled decimal string fed to `parse::<f32>()`, as an exact
rational. A string with no digits on either side of the dot fails Rust's
float parse and collapses to the 0.0 default. -/
def floatVal (neg : Bool) (ip fp : List Char) (ex : Option Int) : ℚ :=
  if ip = [] ∧ fp = [] then 0
  else
    let base : ℚ := (digitsNat ip : ℚ) + (digitsNat fp : ℚ) / ((10 : ℚ) ^ fp.length)
    let q : ℚ :=
      match ex with
      | none => base
      | some e => if 0 ≤ e then base * (10 : ℚ) ^ e.toNat else base / (10 : ℚ) ^ (-e).toNat
    if neg then -q else q

/-- The float lexer `parse_float`: optional sign, optional digits, a mandatory
dot, optional digits, optional exponent. (The second `alt` branch of the Rust
source is subsumed by the first, whose integer-part `fold_many0` already
accepts an empty run.) -/
def floatB (s : List Char) : Option (Tok × List Char) :=
  match (spanDigits (signPart s).2).2 with
  | c :: s3 =>
    if c = '.' then
      some (.FloatT (floatVal (signPart s).1 (spanDigits (signPart s).2).1
              (spanDigits s3).1 (expPart (spanDigits s3).2).1),
            (expPart (spanDigits s3).2).2)
    else none
  | [] => none

/-- The integer lexer `parse_digit`: optional sign then at least one digit. -/
def digitB (s : List Char) : Option (Tok × List Char) :=
  if (spanDigits (signPart s).2).1 = [] then none
  else some (.IntT (intVal (signPart s).1 (spanDigits (signPart s).2).1),
             (spanDigits (signPart s).2).2)

/-- The `/` separator branch (geometry tokenizer only). -/
def slashB : List Char → Option (Tok × List Char)
  | [] => none
  | c :: r => if c = '/' then some (.Slash, r) else none

/-- The comment branch: `#` followed by `take_till` at a line ending. -/
def commentB : List Char → Option (Tok × List Char)
  | [] => none
  | c :: r =>
    if c = '#' then some (.Ignore, r.dropWhile (fun x => ¬(x = '\n' ∨ x = '\r')))
    else none

/-- The whitespace branch `alt((line_ending, multispace1))`. -/
def wsB : List Char → Option (Tok × List Char)
  | [] => none
  | c :: r =>
    if c = '\n' then some (.Ignore, r)
    else if c = '\r' ∧ r.head? = some '\n' then some (.Ignore, r.tail)
    else if isSpc c then some (.Ignore, r.dropWhile isSpc) else none

/-- The fallback branch `is_not(stop)`: the maximal nonempty run of characters
outside `stop` becomes a generic string token. -/
def fallbackB (stop : List Char) (s : List Char) : Option (Tok × List Char) :=
  if s.takeWhile (fun c => ¬ c ∈ stop) = [] then none
  else some (.Str (String.mk (s.takeWhile (fun c => ¬ c ∈ stop))),
             s.dropWhile (fun c => ¬ c ∈ stop))

/-- Keyword table of the geometry tokenizer, in source `alt` order. -/
def objTbl : List (List Char × Tok) :=
  [(("mtllib").data, .MaterialLib), (("usemtl").data, .UseMaterial),
   (("bevel").data, .Bevel), (("c_interp").data, .CInterp),
   (("d_interp").data, .DInterp), (("lod").data, .Lod),
   (("shadow_obj").data, .ShadowObj), (("trace_obj").data, .TraceObj),
   (("maplib").data, .TextureMapLib), (("usemap").data, .UseTextureMap),
   (("vt").data, .VertexTexture), (("vn").data, .VertexNormal),
   (("vp").data, .VertexParam), (("v").data, .Vertex),
   (("f").data, .Face), (("l").data, .Line), (("p").data, .Point),
   (("o").data, .Object), (("g").data, .Group), (("s").data, .Smoothing)]

/-- Keyword table of the material tokenizer, in source `alt` order. -/
def mtlTbl : List (List Char × Tok) :=
  [(("newmtl").data, .NewMaterial), (("spectral").data, .Spectral),
   (("xyz").data, .Xyz), (("sharpness").data, .Sharpness),
   (("illum").data, .IlluminationModel), (("map_disp").data, .DisplacementMap),
   (("map_ka").data, .TextureMapAmbient), (("map_kd").data, .TextureMapDiffuse),
   (("map_ks").data, .TextureMapSpecular), (("map_ns").data, .TextureMapShininess),
   (("map_aat").data, .AntiAliasMap), (("map_d").data, .TextureMapDisolved),
   (("disp").data, .DisplacementMap), (("decal").data, .Decal),
   (("bump").data, .BumpMapT), (("refl").data, .ReflectionMapT),
   (("-halo").data, .Halo), (("-type").data, .ReflectionType),
   (("-texres").data, .OptionTextureResolution), (("-blendu").data, .OptionBlendU),
   (("-blendv").data, .OptionBlendV), (("-boost").data, .OptionBoost),
   (("-clamp").data, .OptionClamp), (("-imfchan").data, .OptionIMFChan),
   (("-bm").data, .OptionBumpMultiplier), (("-cc").data, .OptionColorCorrect),
   (("-mm").data, .OptionRange), (("-o").data, .OptionOffset),
   (("-s").data, .OptionScale), (("-t").data, .OptionTurbulence),
   (("ka").data, .AmbientColor), (("kd").data, .DiffuseColor),
   (("ks").data, .SpecularColor), (("ke").data, .EmissiveCoefficient),
   (("ns").data, .SpecularExponent), (("tr").data, .Transparancy),
   (("tf").data, .TransmissionFactor), (("ni").data, .IndexOfRefraction),
   (("d").data, .Disolved)]

/-- Characters that stop the geometry tokenizer's fallback run (`is_not("\r\n")`). -/
def objStop : List Char := ['\r', '\n']

/-- Characters that stop the material tokenizer's fallback run (`is_not(" \r\n")`). -/
def mtlStop : List Char := [' ', '\r', '\n']

/-- One `alt` round of the geometry tokenizer, in source branch order. -/
def objCharStep (s : List Char) : Option (Tok × List Char) :=
  kwStep objTbl s <|> slashB s <|> floatB s <|> digitB s <|> commentB s <|>
    wsB s <|> fallbackB objStop s

/-- One `alt` round of the material tokenizer, in source branch order (no
slash branch). -/
def mtlCharStep (s : List Char) : Option (Tok × List Char) :=
  kwStep mtlTbl s <|> floatB s <|> digitB s <|> commentB s <|>
    wsB s <|> fallbackB mtlStop s

theorem dropWhile_len_le {α : Type} (p : α → Bool) (l : List α) :
    (l.dropWhile p).length ≤ l.length := by
  induction l with
  | nil => simp
  | cons a l ih =>
    by_cases h : p a
    · rw [List.dropWhile_cons_of_pos h]
      exact le_trans ih (by simp)
    · rw [List.dropWhile_cons_of_neg (by simp [h])]

theorem spanDigits_len_le (s : List Char) : (spanDigits s).2.length ≤ s.length :=
  dropWhile_len_le _ _

theorem spanDigits_split (s : List Char) :
    (spanDigits s).2.length + (spanDigits s).1.length = s.length := by
  have h := congrArg List.length (List.takeWhile_append_dropWhile (p := Char.isDigit) (l := s))
  simp only [List.length_append] at h
  simp only [spanDigits]
  omega

theorem signPart_len_le (s : List Char) : (signPart s).2.length ≤ s.length := by
  cases s with
  | nil => simp [signPart]
  | cons c r =>
    by_cases h1 : c = '+' <;> by_cases h2 : c = '-' <;>
      simp [signPart, h1, h2]

theorem matchNoCase_len (p s r : List Char) (h : matchNoCase p s = some r) :
    r.length + p.length = s.length := by
  induction p generalizing s r with
  | nil =>
    simp only [matchNoCase, Option.some.injEq] at h
    subst h
    simp
  | cons a p ih =>
    cases s with
    | nil => simp [matchNoCase] at h
    | cons c cs =>
      simp only [matchNoCase] at h
      split at h
      · have := ih cs r h
        simp only [List.length_cons]
        omega
      · exact absurd h (by simp)

theorem some_pair_inj {α β : Type} {a t : α} {b r : β}
    (h : (some (a, b) : Option (α × β)) = some (t, r)) : a = t ∧ b = r := by
  simp only [Option.some.injEq, Prod.mk.injEq] at h
  exact h

theorem firstKw_len (tbl : List (List Char × Tok)) (s : List Char) (tk : Tok)
    (r : List Char) (hne : ∀ e ∈ tbl, e.1 ≠ [])
    (h : firstKw tbl s = some (tk, r)) : r.length < s.length := by
  induction tbl with
  | nil => simp [firstKw] at h
  | cons e tbl ih =>
    obtain ⟨kw, tk1⟩ := e
    simp only [firstKw] at h
    split at h
    · rename_i r1 hm
      obtain ⟨h1, h2⟩ := some_pair_inj h
      subst h2
      have hl := matchNoCase_len kw s r1 hm
      have hkw : kw ≠ [] := hne (kw, tk1) (by simp)
      have : 0 < kw.length := List.length_pos.mpr hkw
      omega
    · exact ih (fun e he => hne e (by simp [he])) h

theorem kwStep_len (tbl : List (List Char × Tok)) (s : List Char) (tk : Tok)
    (r : List Char) (hne : ∀ e ∈ tbl, e.1 ≠ [])
    (h : kwStep tbl s = some (tk, r)) : r.length < s.length := by
  unfold kwStep at h
  split at h
  · rename_i tk1 c r1 hm
    split at h
    · obtain ⟨h1, h2⟩ := some_pair_inj h
      subst h2
      have hlt := firstKw_len tbl (s.dropWhile isSpc) tk1 (c :: r1) hne hm
      have hd := dropWhile_len_le isSpc s
      have hd2 := dropWhile_len_le isSpc (c :: r1)
      simp only [List.length_cons] at hlt hd2 ⊢
      omega
    · exact absurd h (by simp)
  · exact absurd h (by simp)

theorem expAfter_len_le (r orig : List Char) (h : r.length ≤ orig.length) :
    (expAfter r orig).2.length ≤ orig.length := by
  unfold expAfter
  have h1 := signPart_len_le r
  have h2 := spanDigits_len_le (signPart r).2
  split
  · simp
  · simp only []
    omega

theorem expPart_len_le (s : List Char) : (expPart s).2.length ≤ s.length := by
  cases s with
  | nil => simp [expPart]
  | cons c r =>
    simp only [expPart]
    by_cases h : c = 'e' ∨ c = 'E'
    · rw [if_pos h]
      exact expAfter_len_le r (c :: r) (by simp)
    · rw [if_neg h]

theorem floatB_len (s r : List Char) (t : Tok) (h : floatB s = some (t, r)) :
    r.length < s.length := by
  unfold floatB at h
  split at h
  · rename_i c s3 hs2
    split at h
    · obtain ⟨h1, h2⟩ := some_pair_inj h
      rw [← h2]
      have e1 := signPart_len_le s
      have e2 := spanDigits_len_le (signPart s).2
      have e3 : s3.length < (spanDigits (signPart s).2).2.length := by
        rw [hs2]; simp
      have e4 := spanDigits_len_le s3
      have e5 := expPart_len_le (spanDigits s3).2
      omega
    · exact absurd h (by simp)
  · exact absurd h (by simp)

theorem digitB_len (s r : List Char) (t : Tok) (h : digitB s = some (t, r)) :
    r.length < s.length := by
  unfold digitB at h
  split at h
  · exact absurd h (by simp)
  · rename_i hne
    obtain ⟨h1, h2⟩ := some_pair_inj h
    subst h2
    have e1 := signPart_len_le s
    have e2 := spanDigits_split (signPart s).2
    have e3 : 0 < (spanDigits (signPart s).2).1.length :=
      List.length_pos.mpr hne
    omega

theorem slashB_len (s r : List Char) (t : Tok) (h : slashB s = some (t, r)) :
    r.length < s.length := by
  unfold slashB at h
  split at h
  · exact absurd h (by simp)
  · split at h
    · obtain ⟨h1, h2⟩ := some_pair_inj h
      rw [← h2]
      simp only [List.length_cons]
      omega
    · exact absurd h (by simp)

theorem commentB_len (s r : List Char) (t : Tok) (h : commentB s = some (t, r)) :
    r.length < s.length := by
  unfold commentB at h
  split at h
  · exact absurd h (by simp)
  · rename_i c r1
    split at h
    · obtain ⟨h1, h2⟩ := some_pair_inj h
      rw [← h2]
      have := dropWhile_len_le (fun x => ¬(x = '\n' ∨ x = '\r')) r1
      simp only [List.length_cons]
      omega
    · exact absurd h (by simp)

theorem wsB_len (s r : List Char) (t : Tok) (h : wsB s = some (t, r)) :
    r.length < s.length := by
  unfold wsB at h
  split at h
  · exact absurd h (by simp)
  · rename_i c r1
    split at h
    · obtain ⟨h1, h2⟩ := some_pair_inj h
      rw [← h2]
      simp only [List.length_cons]
      omega
    · split at h
      · obtain ⟨h1, h2⟩ := some_pair_inj h
        rw [← h2]
        have : r1.tail.length ≤ r1.length := by
          cases r1 <;> simp
        simp only [List.length_cons]
        omega
      · split at h
        · obtain ⟨h1, h2⟩ := some_pair_inj h
          rw [← h2]
          have := dropWhile_len_le isSpc r1
          simp only [List.length_cons]
          omega
        · exact absurd h (by simp)

theorem fallbackB_len (stop s r : List Char) (t : Tok)
    (h : fallbackB stop s = some (t, r)) : r.length < s.length := by
  unfold fallbackB at h
  split at h
  · exact absurd h (by simp)
  · rename_i hne
    obtain ⟨h1, h2⟩ := some_pair_inj h
    subst h2
    have hsp := congrArg List.length
      (List.takeWhile_append_dropWhile (p := fun c => ¬ c ∈ stop) (l := s))
    simp only [List.length_append] at hsp
    have : 0 < (s.takeWhile (fun c => ¬ c ∈ stop)).length :=
      List.length_pos.mpr hne
    omega

theorem objCharStep_len (s r : List Char) (t : Tok)
    (h : objCharStep s = some (t, r)) : r.length < s.length := by
  unfold objCharStep at h
  cases h1 : kwStep objTbl s with
  | some p =>
    rw [h1] at h
    simp only [Option.some_orElse, Option.some.injEq] at h
    subst h
    exact kwStep_len objTbl s t r (by decide) h1
  | none =>
  rw [h1] at h
  simp only [Option.none_orElse] at h
  cases h2 : slashB s with
  | some p =>
    rw [h2] at h
    simp only [Option.some_orElse, Option.some.injEq] at h
    subst h
    exact slashB_len s r t h2
  | none =>
  rw [h2] at h
  simp only [Option.none_orElse] at h
  cases h3 : floatB s with
  | some p =>
    rw [h3] at h
    simp only [Option.some_orElse, Option.some.injEq] at h
    subst h
    exact floatB_len s r t h3
  | none =>
  rw [h3] at h
  simp only [Option.none_orElse] at h
  cases h4 : digitB s with
  | some p =>
    rw [h4] at h
    simp only [Option.some_orElse, Option.some.injEq] at h
    subst h
    exact digitB_len s r t h4
  | none =>
  rw [h4] at h
  simp only [Option.none_orElse] at h
  cases h5 : commentB s with
  | some p =>
    rw [h5] at h
    simp only [Option.some_orElse, Option.some.injEq] at h
    subst h
    exact commentB_len s r t h5
  | none =>
  rw [h5] at h
  simp only [Option.none_orElse] at h
  cases h6 : wsB s with
  | some p =>
    rw [h6] at h
    simp only [Option.some_orElse, Option.some.injEq] at h
    subst h
    exact wsB_len s r t h6
  | none =>
  rw [h6] at h
  simp only [Option.none_orElse] at h
  exact fallbackB_len objStop s r t h

theorem mtlCharStep_len (s r : List Char) (t : Tok)
    (h : mtlCharStep s = some (t, r)) : r.length < s.length := by
  unfold mtlCharStep at h
  cases h1 : kwStep mtlTbl s with
  | some p =>
    rw [h1] at h
    simp only [Option.some_orElse, Option.some.injEq] at h
    subst h
    exact kwStep_len mtlTbl s t r (by decide) h1
  | none =>
  rw [h1] at h
  simp only [Option.none_orElse] at h
  cases h3 : floatB s with
  | some p =>
    rw [h3] at h
    simp only [Option.some_orElse, Option.some.injEq] at h
    subst h
    exact floatB_len s r t h3
  | none =>
  rw [h3] at h
  simp only [Option.none_orElse] at h
  cases h4 : digitB s with
  | some p =>
    rw [h4] at h
    simp only [Option.some_orElse, Option.some.injEq] at h
    subst h
    exact digitB_len s r t h4
  | none =>
  rw [h4] at h
  simp only [Option.none_orElse] at h
  cases h5 : commentB s with
  | some p =>
    rw [h5] at h
    simp only [Option.some_orElse, Option.some.injEq] at h
    subst h
    exact commentB_len s r t h5
  | none =>
  rw [h5] at h
  simp only [Option.none_orElse] at h
  cases h6 : wsB s with
  | some p =>
    rw [h6] at h
    simp only [Option.some_orElse, Option.some.injEq] at h
    subst h
    exact wsB_len s r t h6
  | none =>
  rw [h6] at h
  simp only [Option.none_orElse] at h
  exact fallbackB_len mtlStop s r t h

/-- The tokenizer's `fold_many0`: apply the step until it fails, collecting
tokens and filtering out `Ignore` (the comment/whitespace marker). Recursion
is by fuel so that the definition reduces by kernel computation; the wrappers
supply `length + 1` fuel, which never runs out because every successful step
consumes at least one character (the `_len` lemmas above). -/
def tokLoopF (step : List Char → Option (Tok × List Char)) :
    Nat → List Char → List Tok
  | 0, _ => []
  | fuel + 1, s =>
    match step s with
    | none => []
    | some (t, r) =>
      if t = .Ignore then tokLoopF step fuel r else t :: tokLoopF step fuel r

theorem tokLoopF_irrel (step : List Char → Option (Tok × List Char))
    (hstep : ∀ s r t, step s = some (t, r) → r.length < s.length) :
    ∀ n m s, s.length < n → s.length < m → tokLoopF step n s = tokLoopF step m s := by
  intro n
  induction n with
  | zero => intro m s hn hm; omega
  | succ n ih =>
    intro m s hn hm
    cases m with
    | zero => omega
    | succ m =>
      simp only [tokLoopF]
      cases h : step s with
      | none => rfl
      | some p =>
        obtain ⟨t, r⟩ := p
        have hr := hstep s r t h
        have heq : tokLoopF step n r = tokLoopF step m r := ih m r (by omega) (by omega)
        simp only [heq]

/-- `parse_obj`'s token stream for a character list. -/
def tokenizeObj (s : List Char) : List Tok := tokLoopF objCharStep (s.length + 1) s

/-- `parse_mtl`'s token stream for a character list. -/
def tokenizeMtl (s : List Char) : List Tok := tokLoopF mtlCharStep (s.length + 1) s

theorem tokenizeObj_unfold (s : List Char) :
    tokenizeObj s =
      match objCharStep s with
      | none => []
      | some (t, r) => if t = .Ignore then tokenizeObj r else t :: tokenizeObj r := by
  unfold tokenizeObj
  simp only [tokLoopF]
  cases h : objCharStep s with
  | none => rfl
  | some p =>
    obtain ⟨t, r⟩ := p
    have hr := objCharStep_len s r t h
    have heq : tokLoopF objCharStep s.length r = tokLoopF objCharStep (r.length + 1) r :=
      tokLoopF_irrel objCharStep objCharStep_len s.length (r.length + 1) r (by omega) (by omega)
    simp only [heq, tokenizeObj]
    rfl

theorem tokenizeMtl_unfold (s : List Char) :
    tokenizeMtl s =
      match mtlCharStep s with
      | none => []
      | some (t, r) => if t = .Ignore then tokenizeMtl r else t :: tokenizeMtl r := by
  unfold tokenizeMtl
  simp only [tokLoopF]
  cases h : mtlCharStep s with
  | none => rfl
  | some p =>
    obtain ⟨t, r⟩ := p
    have hr := mtlCharStep_len s r t h
    have heq : tokLoopF mtlCharStep s.length r = tokLoopF mtlCharStep (r.length + 1) r :=
      tokLoopF_irrel mtlCharStep mtlCharStep_len s.length (r.length + 1) r (by omega) (by omega)
    simp only [heq, tokenizeMtl]
    rfl

/-- Tokenizer error enum (`TokenizeError`), message text abstracted. -/
inductive TokenizeError
  | Parse
deriving DecidableEq

/-- `parse_obj` of src/tokenizer/obj.rs. Every input position is matched by
some branch (the whitespace branch covers line endings, the fallback covers
all other characters), so the fold consumes all input and never fails. -/
def parse_obj (s : String) : Except TokenizeError (List Tok) :=
  .ok (tokenizeObj s.data)

/-- `parse_mtl` of src/tokenizer/mtl.rs; total for the same reason. -/
def parse_mtl (s : String) : Except TokenizeError (List Tok) :=
  .ok (tokenizeMtl s.data)

/-! Geometry reducer (src/model.rs). The directive parsers consume tokens
from the front of the stream; `fold_many0` repeatedly applies the `alt` of
all directive parsers and folds the produced `ModelElement`s into the model
accumulator. -/

/-- The intermediate directive payload (`ModelElement` of src/model.rs). -/
inductive ModelElement
  | VertexE (v : Vertex)
  | NormalE (n : Normal)
  | TextureE (t : Texture)
  | FaceE (f : Face)
  | LineE (l : Line)
  | PointE (p : Point)
  | GroupE (names : List String)
  | MaterialLibE (libs : List String)
  | MaterialE (name : String)
  | ObjNameE (name : String)
  | SmoothingE (id : Int)
  | BevelE (flag : Bool)
  | CInterpE (flag : Bool)
  | DInterpE (flag : Bool)
  | LodE (level : Int)
  | ShadowObjE (name : String)
  | TraceObjE (name : String)
  | TextureLibE (libs : List String)
  | TextureMapE (name : String)
deriving DecidableEq

/-- `token_match!(Token::Float(_) | Token::Int(_))` followed by
`get_token_float` (an Int token is widened to float). -/
def numTok? : Tok → Option ℚ
  | .FloatT q => some q
  | .IntT n => some ((n : ℚ))
  | _ => none

/-- `opt` of a numeric token at the front of the stream. -/
def optNum : List Tok → Option ℚ × List Tok
  | [] => (none, [])
  | t :: ts =>
    match numTok? t with
    | some q => (some q, ts)
    | none => (none, t :: ts)

theorem optNum_suffix (ts : List Tok) : (optNum ts).2 <:+ ts := by
  cases ts with
  | nil => simp [optNum]
  | cons t ts =>
    cases h : numTok? t with
    | some q =>
      have he : (optNum (t :: ts)).2 = ts := by simp [optNum, h]
      rw [he]
      exact List.suffix_cons t ts
    | none =>
      have he : (optNum (t :: ts)).2 = t :: ts := by simp [optNum, h]
      rw [he]

/-- `opt(preceded(Slash, opt(Int)))` of the face-element grammar; the
`Some(None)` shape (a slash not followed by an index) stores the same `none`
as a missing slash group, exactly as the Rust flattening does. -/
def slashOptInt : List Tok → Option Int × List Tok
  | .Slash :: .IntT n :: ts => (some n, ts)
  | .Slash :: ts => (none, ts)
  | ts => (none, ts)

theorem slashOptInt_suffix (ts : List Tok) : (slashOptInt ts).2 <:+ ts := by
  unfold slashOptInt
  split
  · rename_i n ts1
    exact (List.suffix_cons _ _).trans (List.suffix_cons _ _)
  · rename_i ts1 h1
    exact List.suffix_cons _ _
  · exact List.suffix_refl _

/-- One face element (`parse_face`'s inner tuple): a vertex index, then two
optional slash groups for texture and normal indices. -/
def faceElem1 : List Tok → Option (FaceElement × List Tok)
  | .IntT v :: ts =>
    some ({ vertex_index := v,
            texture_index := (slashOptInt ts).1,
            normal_index := (slashOptInt (slashOptInt ts).2).1 },
          (slashOptInt (slashOptInt ts).2).2)
  | _ => none

theorem faceElem1_suffix (ts r : List Tok) (e : FaceElement)
    (h : faceElem1 ts = some (e, r)) : r <:+ ts ∧ r.length < ts.length := by
  unfold faceElem1 at h
  split at h
  · rename_i v ts1
    obtain ⟨h1, h2⟩ := some_pair_inj h
    subst h2
    have s1 := slashOptInt_suffix ts1
    have s2 := slashOptInt_suffix (slashOptInt ts1).2
    have hs : (slashOptInt (slashOptInt ts1).2).2 <:+ ts1 := s2.trans s1
    refine ⟨hs.trans (List.suffix_cons _ _), ?_⟩
    have := hs.length_le
    simp only [List.length_cons]
    omega
  · exact absurd h (by simp)

/-- Modelling the `opt(Slash)` of `parse_line`'s element tuple. -/
def lineSkipSlash : List Tok → List Tok
  | .Slash :: ts => ts
  | ts => ts

theorem lineSkipSlash_suffix (ts : List Tok) : lineSkipSlash ts <:+ ts := by
  unfold lineSkipSlash
  split
  · exact List.suffix_cons _ _
  · exact List.suffix_refl _

/-- One line element (`parse_line`'s inner tuple): a vertex index, an
optional slash, then an independently optional texture index. -/
def lineElem1 : List Tok → Option (LineElement × List Tok)
  | .IntT v :: ts =>
    match lineSkipSlash ts with
    | .IntT t :: r => some ({ vertex_index := v, texture_index := some t }, r)
    | _ => some ({ vertex_index := v, texture_index := none }, lineSkipSlash ts)
  | _ => none

theorem lineElem1_suffix (ts r : List Tok) (e : LineElement)
    (h : lineElem1 ts = some (e, r)) : r <:+ ts ∧ r.length < ts.length := by
  unfold lineElem1 at h
  split at h
  · rename_i v ts1
    have s1 := lineSkipSlash_suffix ts1
    split at h
    · rename_i t r1 hm
      obtain ⟨h1, h2⟩ := some_pair_inj h
      have hr : r1 <:+ ts1 := by
        rw [hm] at s1
        exact (List.suffix_cons _ _).trans s1
      rw [← h2]
      refine ⟨hr.trans (List.suffix_cons _ _), ?_⟩
      have := hr.length_le
      simp only [List.length_cons]
      omega
    · obtain ⟨h1, h2⟩ := some_pair_inj h
      rw [← h2]
      refine ⟨s1.trans (List.suffix_cons _ _), ?_⟩
      have := s1.length_le
      simp only [List.length_cons]
      omega
  · exact absurd h (by simp)

/-- One point element (`parse_point`): a bare integer index. -/
def pointElem1 : List Tok → Option (Int × List Tok)
  | .IntT v :: ts => some (v, ts)
  | _ => none

theorem pointElem1_suffix (ts r : List Tok) (e : Int)
    (h : pointElem1 ts = some (e, r)) : r <:+ ts ∧ r.length < ts.length := by
  unfold pointElem1 at h
  split at h
  · obtain ⟨h1, h2⟩ := some_pair_inj h
    subst h2
    exact ⟨List.suffix_cons _ _, by simp only [List.length_cons]; omega⟩
  · exact absurd h (by simp)

/-- One string token (`token_match!(Token::String(_))` + `get_token_string`,
which cannot fail on a string token). -/
def strElem1 : List Tok → Option (String × List Tok)
  | .Str s :: ts => some (s, ts)
  | _ => none

theorem strElem1_suffix (ts r : List Tok) (e : String)
    (h : strElem1 ts = some (e, r)) : r <:+ ts ∧ r.length < ts.length := by
  unfold strElem1 at h
  split at h
  · obtain ⟨h1, h2⟩ := some_pair_inj h
    subst h2
    exact ⟨List.suffix_cons _ _, by simp only [List.length_cons]; omega⟩
  · exact absurd h (by simp)

/-- nom's `fold_many0`/`many0` loop over the token stream: repeat the element
parser until it fails, collecting results. Fuel-based for kernel computation;
the wrapper supplies `length + 1` fuel, sufficient because every element
parser used consumes at least one token. -/
def manyLoopF {α : Type} (p : List Tok → Option (α × List Tok)) :
    Nat → List Tok → List α × List Tok
  | 0, ts => ([], ts)
  | fuel + 1, ts =>
    match p ts with
    | none => ([], ts)
    | some (e, r) =>
      ((manyLoopF p fuel r).1.cons e, (manyLoopF p fuel r).2)

/-- The `many0` loop with enough fuel. -/
def manyLoop {α : Type} (p : List Tok → Option (α × List Tok)) (ts : List Tok) :
    List α × List Tok :=
  manyLoopF p (ts.length + 1) ts

/-- nom's `many1`/`fold_many1`: at least one element, then the `many0` loop. -/
def many1P {α : Type} (p : List Tok → Option (α × List Tok)) (ts : List Tok) :
    Option (List α × List Tok) :=
  match p ts with
  | none => none
  | some (e, r) => some (e :: (manyLoop p r).1, (manyLoop p r).2)

theorem manyLoopF_irrel {α : Type} (p : List Tok → Option (α × List Tok))
    (hp : ∀ ts e r, p ts = some (e, r) → r.length < ts.length) :
    ∀ n m ts, ts.length < n → ts.length < m → manyLoopF p n ts = manyLoopF p m ts := by
  intro n
  induction n with
  | zero => intro m ts hn hm; omega
  | succ n ih =>
    intro m ts hn hm
    cases m with
    | zero => omega
    | succ m =>
      simp only [manyLoopF]
      cases h : p ts with
      | none => rfl
      | some pr =>
        obtain ⟨e, r⟩ := pr
        have hr := hp ts e r h
        have heq : manyLoopF p n r = manyLoopF p m r := ih m r (by omega) (by omega)
        simp only [heq]

theorem manyLoop_unfold {α : Type} (p : List Tok → Option (α × List Tok))
    (hp : ∀ ts e r, p ts = some (e, r) → r.length < ts.length) (ts : List Tok) :
    manyLoop p ts =
      match p ts with
      | none => ([], ts)
      | some (e, r) => (e :: (manyLoop p r).1, (manyLoop p r).2) := by
  unfold manyLoop
  simp only [manyLoopF]
  cases h : p ts with
  | none => rfl
  | some pr =>
    obtain ⟨e, r⟩ := pr
    have hr := hp ts e r h
    have heq : manyLoopF p ts.length r = manyLoopF p (r.length + 1) r :=
      manyLoopF_irrel p hp ts.length (r.length + 1) r (by omega) (by omega)
    simp only [heq]
    rfl

theorem manyLoop_suffix {α : Type} (p : List Tok → Option (α × List Tok))
    (hp : ∀ ts e r, p ts = some (e, r) → r <:+ ts ∧ r.length < ts.length) :
    ∀ ts, (manyLoop p ts).2 <:+ ts := by
  have hlen : ∀ ts e r, p ts = some (e, r) → r.length < ts.length :=
    fun ts e r h => (hp ts e r h).2
  have H : ∀ n ts, ts.length ≤ n → (manyLoop p ts).2 <:+ ts := by
    intro n
    induction n with
    | zero =>
      intro ts hts
      rw [manyLoop_unfold p hlen]
      cases h : p ts with
      | none => exact List.suffix_refl _
      | some pr =>
        obtain ⟨e, r⟩ := pr
        have := hlen ts e r h
        omega
    | succ n ih =>
      intro ts hts
      rw [manyLoop_unfold p hlen]
      cases h : p ts with
      | none => exact List.suffix_refl _
      | some pr =>
        obtain ⟨e, r⟩ := pr
        obtain ⟨hsuf, hlt⟩ := hp ts e r h
        have : (manyLoop p r).2 <:+ r := ih r (by omega)
        exact this.trans hsuf
  exact fun ts => H ts.length ts le_rfl

theorem many1P_suffix {α : Type} (p : List Tok → Option (α × List Tok))
    (hp : ∀ ts e r, p ts = some (e, r) → r <:+ ts ∧ r.length < ts.length)
    (ts r : List Tok) (es : List α) (h : many1P p ts = some (es, r)) : r <:+ ts := by
  unfold many1P at h
  split at h
  · exact absurd h (by simp)
  · rename_i e r1 h1
    obtain ⟨h2, h3⟩ := some_pair_inj h
    subst h3
    exact (manyLoop_suffix p hp r1).trans (hp ts e r1 h1).1

/-- Argument run of `parse_vertex`: three mandatory numeric tokens and an
optional fourth (the w component). -/
def vertexD : List Tok → Option (ModelElement × List Tok)
  | a :: b :: c :: r =>
    match numTok? a, numTok? b, numTok? c with
    | some x, some y, some z =>
      some (.VertexE { x := x, y := y, z := z, w := (optNum r).1 }, (optNum r).2)
    | _, _, _ => none
  | _ => none

/-- Argument run of `parse_vertex_normal`: three mandatory numeric tokens. -/
def normalD : List Tok → Option (ModelElement × List Tok)
  | a :: b :: c :: r =>
    match numTok? a, numTok? b, numTok? c with
    | some x, some y, some z => some (.NormalE { x := x, y := y, z := z }, r)
    | _, _, _ => none
  | _ => none

/-- Argument run of `parse_vertex_texture`: one mandatory numeric token and
up to two optional ones. -/
def textureD : List Tok → Option (ModelElement × List Tok)
  | a :: r =>
    match numTok? a with
    | some u =>
      some (.TextureE { u := u, v := (optNum r).1, w := (optNum (optNum r).2).1 },
            (optNum (optNum r).2).2)
    | none => none
  | [] => none

/-- Argument run of `parse_face`: `fold_many1` of face elements. -/
def faceD (ts : List Tok) : Option (ModelElement × List Tok) :=
  match many1P faceElem1 ts with
  | some (es, r) => some (.FaceE { elements := es, smoothing_group := 0 }, r)
  | none => none

/-- Argument run of `parse_line`: `fold_many1` of line elements. -/
def lineD (ts : List Tok) : Option (ModelElement × List Tok) :=
  match many1P lineElem1 ts with
  | some (es, r) => some (.LineE { elements := es }, r)
  | none => none

/-- Argument run of `parse_point`: `fold_many1` of integer tokens. -/
def pointD (ts : List Tok) : Option (ModelElement × List Tok) :=
  match many1P pointElem1 ts with
  | some (es, r) => some (.PointE { elements := es }, r)
  | none => none

/-- Argument run of `parse_group` / `parse_mat_lib` / `parse_texture_lib`:
`many1` of string tokens, wrapped by the given element constructor. -/
def strsD (mk : List String → ModelElement) (ts : List Tok) :
    Option (ModelElement × List Tok) :=
  match many1P strElem1 ts with
  | some (es, r) => some (mk es, r)
  | none => none

/-- Argument run of the directives taking exactly one string token
(`usemtl`, `shadow_obj`, `trace_obj`, `usemap`). -/
def str1D (mk : String → ModelElement) : List Tok → Option (ModelElement × List Tok)
  | .Str s :: r => some (mk s, r)
  | _ => none

/-- Argument run of `parse_obj_name`: one string or integer token,
`get_token_string` turning an integer into its decimal text. -/
def objNameD : List Tok → Option (ModelElement × List Tok)
  | .Str s :: r => some (.ObjNameE s, r)
  | .IntT n :: r => some (.ObjNameE (toString n), r)
  | _ => none

/-- Argument run of `parse_smoothing`: an integer token, or a string token
put through `get_on_off_from_str` ("off" gives 0; "on" gives 1 after the
error-logged fallthrough; any other word fails the on/off conversion and the
logged default `false` also gives 0). -/
def smoothingD : List Tok → Option (ModelElement × List Tok)
  | .IntT n :: r => some (.SmoothingE n, r)
  | .Str s :: r => some (.SmoothingE (if s = ("on") then 1 else 0), r)
  | _ => none

/-- Argument run of `parse_bevel` / `parse_c_interp` / `parse_d_interp`: one
string token parsed with Rust `str::parse::<bool>` (only the exact word
"true" yields `true`; a failed parse falls back to `false`). -/
def boolD (mk : Bool → ModelElement) : List Tok → Option (ModelElement × List Tok)
  | .Str s :: r => some (mk (s == ("true")), r)
  | _ => none

/-- Argument run of `parse_lod`: one integer token. -/
def lodD : List Tok → Option (ModelElement × List Tok)
  | .IntT n :: r => some (.LodE n, r)
  | _ => none

/-- One round of `model::parse`'s `alt` over the 19 directive parsers. The
alternatives all begin with distinct keyword tokens, so the `alt` is a
dispatch on the head token; a head that starts no directive (or malformed
arguments after a keyword) makes every alternative fail. -/
def parseStep : List Tok → Option (ModelElement × List Tok)
  | [] => none
  | k :: ts =>
    match k with
    | .Vertex => vertexD ts
    | .VertexNormal => normalD ts
    | .VertexTexture => textureD ts
    | .Face => faceD ts
    | .Line => lineD ts
    | .Point => pointD ts
    | .MaterialLib => strsD .MaterialLibE ts
    | .UseMaterial => str1D .MaterialE ts
    | .Object => objNameD ts
    | .Smoothing => smoothingD ts
    | .Bevel => boolD .BevelE ts
    | .CInterp => boolD .CInterpE ts
    | .DInterp => boolD .DInterpE ts
    | .Lod => lodD ts
    | .ShadowObj => str1D .ShadowObjE ts
    | .TraceObj => str1D .TraceObjE ts
    | .TextureMapLib => strsD .TextureLibE ts
    | .UseTextureMap => str1D .TextureMapE ts
    | .Group => strsD .GroupE ts
    | _ => none

theorem vertexD_suffix (ts r : List Tok) (e : ModelElement)
    (h : vertexD ts = some (e, r)) : r <:+ ts := by
  unfold vertexD at h
  split at h
  · rename_i a b c rr
    split at h
    · obtain ⟨h1, h2⟩ := some_pair_inj h
      rw [← h2]
      exact ((optNum_suffix rr).trans (List.suffix_cons _ _)).trans
        ((List.suffix_cons _ _).trans (List.suffix_cons _ _))
    · exact absurd h (by simp)
  · exact absurd h (by simp)

theorem normalD_suffix (ts r : List Tok) (e : ModelElement)
    (h : normalD ts = some (e, r)) : r <:+ ts := by
  unfold normalD at h
  split at h
  · rename_i a b c rr
    split at h
    · obtain ⟨h1, h2⟩ := some_pair_inj h
      rw [← h2]
      exact ((List.suffix_cons _ _).trans (List.suffix_cons _ _)).trans
        (List.suffix_cons _ _)
    · exact absurd h (by simp)
  · exact absurd h (by simp)

theorem textureD_suffix (ts r : List Tok) (e : ModelElement)
    (h : textureD ts = some (e, r)) : r <:+ ts := by
  unfold textureD at h
  split at h
  · rename_i a rr
    split at h
    · obtain ⟨h1, h2⟩ := some_pair_inj h
      rw [← h2]
      exact ((optNum_suffix (optNum rr).2).trans (optNum_suffix rr)).trans
        (List.suffix_cons _ _)
    · exact absurd h (by simp)
  · exact absurd h (by simp)

theorem faceD_suffix (ts r : List Tok) (e : ModelElement)
    (h : faceD ts = some (e, r)) : r <:+ ts := by
  unfold faceD at h
  split at h
  · rename_i es rr hm
    obtain ⟨h1, h2⟩ := some_pair_inj h
    rw [← h2]
    exact many1P_suffix faceElem1 (fun a b c hh => faceElem1_suffix a c b hh) ts rr es hm
  · exact absurd h (by simp)

theorem lineD_suffix (ts r : List Tok) (e : ModelElement)
    (h : lineD ts = some (e, r)) : r <:+ ts := by
  unfold lineD at h
  split at h
  · rename_i es rr hm
    obtain ⟨h1, h2⟩ := some_pair_inj h
    rw [← h2]
    exact many1P_suffix lineElem1 (fun a b c hh => lineElem1_suffix a c b hh) ts rr es hm
  · exact absurd h (by simp)

theorem pointD_suffix (ts r : List Tok) (e : ModelElement)
    (h : pointD ts = some (e, r)) : r <:+ ts := by
  unfold pointD at h
  split at h
  · rename_i es rr hm
    obtain ⟨h1, h2⟩ := some_pair_inj h
    rw [← h2]
    exact many1P_suffix pointElem1 (fun a b c hh => pointElem1_suffix a c b hh) ts rr es hm
  · exact absurd h (by simp)

theorem strsD_suffix (mk : List String → ModelElement) (ts r : List Tok)
    (e : ModelElement) (h : strsD mk ts = some (e, r)) : r <:+ ts := by
  unfold strsD at h
  split at h
  · rename_i es rr hm
    obtain ⟨h1, h2⟩ := some_pair_inj h
    rw [← h2]
    exact many1P_suffix strElem1 (fun a b c hh => strElem1_suffix a c b hh) ts rr es hm
  · exact absurd h (by simp)

theorem str1D_suffix (mk : String → ModelElement) (ts r : List Tok)
    (e : ModelElement) (h : str1D mk ts = some (e, r)) : r <:+ ts := by
  unfold str1D at h
  split at h
  · obtain ⟨h1, h2⟩ := some_pair_inj h
    rw [← h2]
    exact List.suffix_cons _ _
  · exact absurd h (by simp)

theorem objNameD_suffix (ts r : List Tok) (e : ModelElement)
    (h : objNameD ts = some (e, r)) : r <:+ ts := by
  unfold objNameD at h
  split at h
  · obtain ⟨h1, h2⟩ := some_pair_inj h
    rw [← h2]
    exact List.suffix_cons _ _
  · obtain ⟨h1, h2⟩ := some_pair_inj h
    rw [← h2]
    exact List.suffix_cons _ _
  · exact absurd h (by simp)

theorem smoothingD_suffix (ts r : List Tok) (e : ModelElement)
    (h : smoothingD ts = some (e, r)) : r <:+ ts := by
  unfold smoothingD at h
  split at h
  · obtain ⟨h1, h2⟩ := some_pair_inj h
    rw [← h2]
    exact List.suffix_cons _ _
  · obtain ⟨h1, h2⟩ := some_pair_inj h
    rw [← h2]
    exact List.suffix_cons _ _
  · exact absurd h (by simp)

theorem boolD_suffix (mk : Bool → ModelElement) (ts r : List Tok)
    (e : ModelElement) (h : boolD mk ts = some (e, r)) : r <:+ ts := by
  unfold boolD at h
  split at h
  · obtain ⟨h1, h2⟩ := some_pair_inj h
    rw [← h2]
    exact List.suffix_cons _ _
  · exact absurd h (by simp)

theorem lodD_suffix (ts r : List Tok) (e : ModelElement)
    (h : lodD ts = some (e, r)) : r <:+ ts := by
  unfold lodD at h
  split at h
  · obtain ⟨h1, h2⟩ := some_pair_inj h
    rw [← h2]
    exact List.suffix_cons _ _
  · exact absurd h (by simp)

theorem parseStep_suffix (l r : List Tok) (e : ModelElement)
    (h : parseStep l = some (e, r)) : l ≠ [] ∧ r <:+ l.tail := by
  cases l with
  | nil => simp [parseStep] at h
  | cons k ts =>
    refine ⟨by simp, ?_⟩
    simp only [List.tail_cons]
    simp only [parseStep] at h
    split at h
    · exact vertexD_suffix ts r e h
    · exact normalD_suffix ts r e h
    · exact textureD_suffix ts r e h
    · exact faceD_suffix ts r e h
    · exact lineD_suffix ts r e h
    · exact pointD_suffix ts r e h
    · exact strsD_suffix _ ts r e h
    · exact str1D_suffix _ ts r e h
    · exact objNameD_suffix ts r e h
    · exact smoothingD_suffix ts r e h
    · exact boolD_suffix _ ts r e h
    · exact boolD_suffix _ ts r e h
    · exact boolD_suffix _ ts r e h
    · exact lodD_suffix ts r e h
    · exact str1D_suffix _ ts r e h
    · exact str1D_suffix _ ts r e h
    · exact strsD_suffix _ ts r e h
    · exact str1D_suffix _ ts r e h
    · exact strsD_suffix _ ts r e h
    · exact absurd h (by simp)

theorem parseStep_len (l r : List Tok) (e : ModelElement)
    (h : parseStep l = some (e, r)) : r.length < l.length := by
  obtain ⟨hne, hsuf⟩ := parseStep_suffix l r e h
  cases l with
  | nil => exact absurd rfl hne
  | cons k ts =>
    have := hsuf.length_le
    simp only [List.tail_cons] at this
    simp only [List.length_cons]
    omega

/-- `{g with material_name := name}` as applied by the `usemtl` fold branch. -/
def setMaterialName (name : String) (g : Group) : Group :=
  { g with material_name := name }

/-- `{g with texture_map := Some name}` as applied by the `usemap` fold branch. -/
def setTextureMap (name : String) (g : Group) : Group :=
  { g with texture_map := some name }

/-- The fold body of `model::parse`: how one `ModelElement` mutates the model
accumulator. Mirrors the `match item` of src/model.rs lines 261-317,
including the branches that deliberately discard their payload
(`ObjName`, `Bevel`, `CInterp`, `DInterp`, `Lod`, `ShadowObj`, `TraceObj`). -/
def applyElem (m : Model) (e : ModelElement) : Model :=
  match e with
  | .VertexE v => { m with vertices := m.vertices ++ [v] }
  | .NormalE n => { m with normals := m.normals ++ [n] }
  | .TextureE t => { m with textures := m.textures ++ [t] }
  | .FaceE f =>
    { m with faces := (m.current_group.foldl
        (fun fs g => mapAdjust fs g
          (fun l => l ++ [{ f with smoothing_group := m.current_smoothing_group }]) [])
        m.faces) }
  | .LineE l =>
    { m with lines := (m.current_group.foldl
        (fun fs g => mapAdjust fs g (fun xs => xs ++ [l]) []) m.lines) }
  | .PointE p =>
    { m with points := (m.current_group.foldl
        (fun fs g => mapAdjust fs g (fun xs => xs ++ [p]) []) m.points) }
  | .GroupE names =>
    { m with groups := (names.foldl (fun gs g => mapInsert gs g G0) m.groups),
             current_group := names }
  | .MaterialLibE libs => { m with material_libs := m.material_libs ++ libs }
  | .MaterialE name =>
    { m with groups := (m.current_group.foldl
        (fun gs g => mapAdjust gs g (setMaterialName name) G0) m.groups) }
  | .ObjNameE _ => m
  | .SmoothingE id => { m with current_smoothing_group := id }
  | .BevelE _ => m
  | .CInterpE _ => m
  | .DInterpE _ => m
  | .LodE _ => m
  | .ShadowObjE _ => m
  | .TraceObjE _ => m
  | .TextureLibE libs => { m with texture_libs := m.texture_libs ++ libs }
  | .TextureMapE name =>
    { m with groups := (m.current_group.foldl
        (fun gs g => mapAdjust gs g (setTextureMap name) G0) m.groups) }

/-- The `fold_many0` of `model::parse`: repeat `parseStep`, folding elements
into the accumulator, and stop (returning the accumulator) at the first
position where no directive parser matches. Fuel-based for kernel
computation; the wrapper supplies `length + 1` fuel, which suffices because
every directive consumes at least one token (`parseStep_len`). -/
def parseFoldF : Nat → Model → List Tok → Model
  | 0, m, _ => m
  | fuel + 1, m, ts =>
    match parseStep ts with
    | none => m
    | some (e, r) => parseFoldF fuel (applyElem m e) r

/-- The geometry fold with enough fuel. -/
def parseFold (m : Model) (ts : List Tok) : Model :=
  parseFoldF (ts.length + 1) m ts

theorem parseFoldF_irrel :
    ∀ n m2 (mo : Model) (ts : List Tok), ts.length < n → ts.length < m2 →
      parseFoldF n mo ts = parseFoldF m2 mo ts := by
  intro n
  induction n with
  | zero => intro m2 mo ts hn hm; omega
  | succ n ih =>
    intro m2 mo ts hn hm
    cases m2 with
    | zero => omega
    | succ m2 =>
      simp only [parseFoldF]
      cases h : parseStep ts with
      | none => rfl
      | some pr =>
        obtain ⟨e, r⟩ := pr
        have hr := parseStep_len ts r e h
        exact ih m2 (applyElem mo e) r (by omega) (by omega)

theorem parseFold_unfold (m : Model) (ts : List Tok) :
    parseFold m ts =
      match parseStep ts with
      | none => m
      | some (e, r) => parseFold (applyElem m e) r := by
  unfold parseFold
  simp only [parseFoldF]
  cases h : parseStep ts with
  | none => rfl
  | some pr =>
    obtain ⟨e, r⟩ := pr
    have hr := parseStep_len ts r e h
    exact parseFoldF_irrel ts.length (r.length + 1) (applyElem m e) r (by omega) (by omega)

/-- Geometry-reducer error enum (`ModelError`), message text abstracted. -/
inductive ModelError
  | Parse
deriving DecidableEq

/-- `model::parse` of src/model.rs. `fold_many0` stops without failing at the
first unmatched position, and none of the token parsers raises a nom
`Failure`, so the fold's `Err` branch is unreachable: the function always
returns `Ok` of the accumulator (any unconsumed tokens are dropped). -/
def modelParse (ts : List Tok) : Except ModelError Model :=
  .ok (parseFold M0 ts)

/-! Material reducer (src/material.rs). -/

/-- The three shapes of a material color (`ColorType`). -/
inductive ColorType
  | Rgb (r g b : ℚ)
  | Spectral (file : String) (factor : ℚ)
  | CieXyz (x y z : ℚ)
deriving DecidableEq

/-- The two shapes of a dissolve value (`DisolveType`). -/
inductive DisolveType
  | Alpha (f : ℚ)
  | Halo (f : ℚ)
deriving DecidableEq

/-- One parsed item of a texture-map option run (`OptionElement`). -/
inductive OptionElement
  | FileName (n : String)
  | BlendU (b : Bool)
  | BlendV (b : Bool)
  | Cc (b : Bool)
  | Clamp (b : Bool)
  | TextureRange (base gain : ℚ)
  | Offset (x : ℚ) (y z : Option ℚ)
  | Scale (x : ℚ) (y z : Option ℚ)
  | Turbulance (x : ℚ) (y z : Option ℚ)
  | TextureRes (n : Int)
  | ImfChan (s : String)
  | BumpMultiplier (q : ℚ)
  | RType (s : String)
deriving DecidableEq

/-- Map settings for color-correctable maps (`ColorCorrectedMap`). -/
structure ColorCorrectedMap where
  file_name : String := ""
  blend_u : Option Bool := none
  blend_v : Option Bool := none
  color_correct : Option Bool := none
  clamp : Option Bool := none
  texture_range : Option (ℚ × ℚ) := none
  offset : Option (ℚ × Option ℚ × Option ℚ) := none
  scale : Option (ℚ × Option ℚ × Option ℚ) := none
  turbulance : Option (ℚ × Option ℚ × Option ℚ) := none
  texture_res : Option Int := none
deriving DecidableEq

/-- Map settings for non-color-correctable maps (`NonColorCorrectedMap`). -/
structure NonColorCorrectedMap where
  file_name : String := ""
  blend_u : Option Bool := none
  blend_v : Option Bool := none
  clamp : Option Bool := none
  imf_chan : Option String := none
  texture_range : Option (ℚ × ℚ) := none
  offset : Option (ℚ × Option ℚ × Option ℚ) := none
  scale : Option (ℚ × Option ℚ × Option ℚ) := none
  turbulance : Option (ℚ × Option ℚ × Option ℚ) := none
  texture_res : Option Int := none
deriving DecidableEq

/-- Bump-map record (`BumpMap`). -/
structure BumpMap where
  bump_multiplier : Option ℚ := none
  map_settings : Option NonColorCorrectedMap := none
deriving DecidableEq

/-- Reflection-map record (`ReflectionMap`). -/
structure ReflectionMap where
  reflection_type : String := ""
  map_settings : Option ColorCorrectedMap := none
deriving DecidableEq

/-- A material record (`Material`), all fields optional except the name. -/
structure Material where
  name : String := ""
  ambient : Option ColorType := none
  diffuse : Option ColorType := none
  specular : Option ColorType := none
  emissive_coefficient : Option ColorType := none
  specular_exponent : Option ℚ := none
  disolve : Option DisolveType := none
  transparancy : Option ℚ := none
  transmission_factor : Option ColorType := none
  sharpness : Option ℚ := none
  index_of_refraction : Option ℚ := none
  illumination_mode : Option Nat := none
  texture_map_ambient : Option ColorCorrectedMap := none
  texture_map_diffuse : Option ColorCorrectedMap := none
  texture_map_specular : Option ColorCorrectedMap := none
  shininess_map : Option NonColorCorrectedMap := none
  disolve_map : Option NonColorCorrectedMap := none
  displacement_map : Option NonColorCorrectedMap := none
  decal : Option NonColorCorrectedMap := none
  bump_map : Option BumpMap := none
  reflection_map : Option ReflectionMap := none
  anti_alias_map : Option Bool := none
deriving DecidableEq

/-- The intermediate element of the material fold (`MaterialElement`). -/
inductive MaterialElement
  | Name (n : String)
  | Ambient (c : ColorType)
  | Diffuse (c : ColorType)
  | Specular (c : ColorType)
  | EmissiveC (c : ColorType)
  | SpecularExp (f : ℚ)
  | Disolve (d : DisolveType)
  | Transparency (f : ℚ)
  | TransmissionF (c : ColorType)
  | SharpnessE (f : ℚ)
  | IndexOfRefractionE (f : ℚ)
  | IlluminationModelE (u : Nat)
  | TexMapAmbient (cc : ColorCorrectedMap)
  | TexMapDiffuse (cc : ColorCorrectedMap)
  | TexMapSpecular (cc : ColorCorrectedMap)
  | ShininessMap (ncc : NonColorCorrectedMap)
  | DisolveMap (ncc : NonColorCorrectedMap)
  | DisplacementMapE (ncc : NonColorCorrectedMap)
  | DecalE (ncc : NonColorCorrectedMap)
  | BumpMapE (bm : BumpMap)
  | ReflectionMapE (rm : ReflectionMap)
  | AntiAliasE (b : Bool)
deriving DecidableEq

/-- `get_on_off_from_str` followed by the callers’ logged `false` default on
the error path: only the exact word "on" yields `true`. -/
def onOffD (s : String) : Bool := s == ("on")

/-- One round of `parse_options`’ `many1(alt(...))`: the recognized
dash-prefixed options in source order, with a bare string token parsed as a
(further) file name. A token matching none of these ends the run. -/
def optionStep : List Tok → Option (OptionElement × List Tok)
  | .OptionBlendU :: .Str s :: r => some (.BlendU (onOffD s), r)
  | .OptionBlendV :: .Str s :: r => some (.BlendV (onOffD s), r)
  | .OptionBumpMultiplier :: t :: r =>
    match numTok? t with
    | some q => some (.BumpMultiplier q, r)
    | none => none
  | .OptionColorCorrect :: .Str s :: r => some (.Cc (onOffD s), r)
  | .OptionClamp :: .Str s :: r => some (.Clamp (onOffD s), r)
  | .OptionRange :: a :: b :: r =>
    match numTok? a, numTok? b with
    | some x, some y => some (.TextureRange x y, r)
    | _, _ => none
  | .OptionOffset :: a :: r =>
    match numTok? a with
    | some x =>
      some (.Offset x (optNum r).1 (optNum (optNum r).2).1, (optNum (optNum r).2).2)
    | none => none
  | .OptionScale :: a :: r =>
    match numTok? a with
    | some x =>
      some (.Scale x (optNum r).1 (optNum (optNum r).2).1, (optNum (optNum r).2).2)
    | none => none
  | .OptionTurbulence :: a :: r =>
    match numTok? a with
    | some x =>
      some (.Turbulance x (optNum r).1 (optNum (optNum r).2).1, (optNum (optNum r).2).2)
    | none => none
  | .OptionTextureResolution :: .IntT n :: r => some (.TextureRes n, r)
  | .OptionIMFChan :: .Str s :: r => some (.ImfChan s, r)
  | .ReflectionType :: .Str s :: r => some (.RType s, r)
  | .Str s :: r => some (.FileName s, r)
  | _ => none

set_option maxHeartbeats 1000000 in
theorem optionStep_suffix (ts r : List Tok) (e : OptionElement)
    (h : optionStep ts = some (e, r)) : r <:+ ts ∧ r.length < ts.length := by
  unfold optionStep at h
  split at h
  case _ => -- BlendU
    obtain ⟨h1, h2⟩ := some_pair_inj h
    rw [← h2]
    exact ⟨(List.suffix_cons _ _).trans (List.suffix_cons _ _), by simp only [List.length_cons]; omega⟩
  case _ =>
    obtain ⟨h1, h2⟩ := some_pair_inj h
    rw [← h2]
    exact ⟨(List.suffix_cons _ _).trans (List.suffix_cons _ _), by simp only [List.length_cons]; omega⟩
  case _ => -- BumpMultiplier
    split at h
    · obtain ⟨h1, h2⟩ := some_pair_inj h
      rw [← h2]
      exact ⟨(List.suffix_cons _ _).trans (List.suffix_cons _ _), by simp only [List.length_cons]; omega⟩
    · exact absurd h (by simp)
  case _ =>
    obtain ⟨h1, h2⟩ := some_pair_inj h
    rw [← h2]
    exact ⟨(List.suffix_cons _ _).trans (List.suffix_cons _ _), by simp only [List.length_cons]; omega⟩
  case _ =>
    obtain ⟨h1, h2⟩ := some_pair_inj h
    rw [← h2]
    exact ⟨(List.suffix_cons _ _).trans (List.suffix_cons _ _), by simp only [List.length_cons]; omega⟩
  case _ => -- TextureRange
    split at h
    · obtain ⟨h1, h2⟩ := some_pair_inj h
      rw [← h2]
      exact ⟨((List.suffix_cons _ _).trans (List.suffix_cons _ _)).trans
        (List.suffix_cons _ _), by simp only [List.length_cons]; omega⟩
    · exact absurd h (by simp)
  case _ => -- Offset
    rename_i a rr
    split at h
    · obtain ⟨h1, h2⟩ := some_pair_inj h
      rw [← h2]
      have hs : (optNum (optNum rr).2).2 <:+ rr :=
        (optNum_suffix (optNum rr).2).trans (optNum_suffix rr)
      refine ⟨(hs.trans (List.suffix_cons _ _)).trans (List.suffix_cons _ _), ?_⟩
      have := hs.length_le
      simp only [List.length_cons]
      omega
    · exact absurd h (by simp)
  case _ => -- Scale
    rename_i a rr
    split at h
    · obtain ⟨h1, h2⟩ := some_pair_inj h
      rw [← h2]
      have hs : (optNum (optNum rr).2).2 <:+ rr :=
        (optNum_suffix (optNum rr).2).trans (optNum_suffix rr)
      refine ⟨(hs.trans (List.suffix_cons _ _)).trans (List.suffix_cons _ _), ?_⟩
      have := hs.length_le
      simp only [List.length_cons]
      omega
    · exact absurd h (by simp)
  case _ => -- Turbulance
    rename_i a rr
    split at h
    · obtain ⟨h1, h2⟩ := some_pair_inj h
      rw [← h2]
      have hs : (optNum (optNum rr).2).2 <:+ rr :=
        (optNum_suffix (optNum rr).2).trans (optNum_suffix rr)
      refine ⟨(hs.trans (List.suffix_cons _ _)).trans (List.suffix_cons _ _), ?_⟩
      have := hs.length_le
      simp only [List.length_cons]
      omega
    · exact absurd h (by simp)
  case _ =>
    obtain ⟨h1, h2⟩ := some_pair_inj h
    rw [← h2]
    exact ⟨(List.suffix_cons _ _).trans (List.suffix_cons _ _), by simp only [List.length_cons]; omega⟩
  case _ =>
    obtain ⟨h1, h2⟩ := some_pair_inj h
    rw [← h2]
    exact ⟨(List.suffix_cons _ _).trans (List.suffix_cons _ _), by simp only [List.length_cons]; omega⟩
  case _ =>
    obtain ⟨h1, h2⟩ := some_pair_inj h
    rw [← h2]
    exact ⟨(List.suffix_cons _ _).trans (List.suffix_cons _ _), by simp only [List.length_cons]; omega⟩
  case _ => -- FileName
    obtain ⟨h1, h2⟩ := some_pair_inj h
    rw [← h2]
    exact ⟨List.suffix_cons _ _, by simp only [List.length_cons]; omega⟩
  case _ => exact absurd h (by simp)

/-- The option run of every texture-map directive: `many1` of `optionStep`. -/
def optionsRun (ts : List Tok) : Option (List OptionElement × List Tok) :=
  many1P optionStep ts

/-- `ColorCorrectedMap::new`’s per-element update (its `for` loop body);
`ImfChan`, `BumpMultiplier` and `RType` fall through the catch-all arm. -/
def ccApply (m : ColorCorrectedMap) (e : OptionElement) : ColorCorrectedMap :=
  match e with
  | .FileName n => { m with file_name := n }
  | .BlendU b => { m with blend_u := some b }
  | .BlendV b => { m with blend_v := some b }
  | .Cc b => { m with color_correct := some b }
  | .Clamp b => { m with clamp := some b }
  | .TextureRange base gain => { m with texture_range := some (base, gain) }
  | .Offset x y z => { m with offset := some (x, y, z) }
  | .Scale x y z => { m with scale := some (x, y, z) }
  | .Turbulance x y z => { m with turbulance := some (x, y, z) }
  | .TextureRes n => { m with texture_res := some n }
  | _ => m

/-- `ColorCorrectedMap::new`: fold the option run over the default record. -/
def ccNew (o : List OptionElement) : ColorCorrectedMap :=
  o.foldl ccApply {}

/-- `NonColorCorrectedMap::new`’s per-element update; `Cc`, `BumpMultiplier`
and `RType` fall through the catch-all arm. -/
def nccApply (m : NonColorCorrectedMap) (e : OptionElement) : NonColorCorrectedMap :=
  match e with
  | .FileName n => { m with file_name := n }
  | .BlendU b => { m with blend_u := some b }
  | .BlendV b => { m with blend_v := some b }
  | .Clamp b => { m with clamp := some b }
  | .ImfChan s => { m with imf_chan := some s }
  | .TextureRange base gain => { m with texture_range := some (base, gain) }
  | .Offset x y z => { m with offset := some (x, y, z) }
  | .Scale x y z => { m with scale := some (x, y, z) }
  | .Turbulance x y z => { m with turbulance := some (x, y, z) }
  | .TextureRes n => { m with texture_res := some n }
  | _ => m

/-- `NonColorCorrectedMap::new`. -/
def nccNew (o : List OptionElement) : NonColorCorrectedMap :=
  o.foldl nccApply {}

/-- `BumpMap::new`: the settings record plus the first bump multiplier. -/
def bumpNew (o : List OptionElement) : BumpMap :=
  { map_settings := some (nccNew o),
    bump_multiplier := (o.findSome? fun e =>
      match e with
      | .BumpMultiplier q => some q
      | _ => none) }

/-- `ReflectionMap::new`: the settings record plus the first `-type` value. -/
def reflNew (o : List OptionElement) : ReflectionMap :=
  { map_settings := some (ccNew o),
    reflection_type := ((o.findSome? fun e =>
      match e with
      | .RType s => some s
      | _ => none).getD ("")) }

/-- `parse_color_type`: spectral, then CIE-XYZ, then a plain RGB triple, in
that priority order. Spectral’s factor defaults to 1; XYZ’s y and z each
default to x. -/
def colorTypeD : List Tok → Option (ColorType × List Tok)
  | .Spectral :: .Str f :: r =>
    some (.Spectral f (((optNum r).1.getD 1)), (optNum r).2)
  | .Xyz :: a :: r =>
    match numTok? a with
    | some x =>
      some (.CieXyz x ((optNum r).1.getD x) ((optNum (optNum r).2).1.getD x),
            (optNum (optNum r).2).2)
    | none => none
  | a :: b :: c :: r =>
    match numTok? a, numTok? b, numTok? c with
    | some x, some y, some z => some (.Rgb x y z, r)
    | _, _, _ => none
  | _ => none

theorem colorTypeD_suffix (ts r : List Tok) (c : ColorType)
    (h : colorTypeD ts = some (c, r)) : r <:+ ts ∧ r.length < ts.length := by
  unfold colorTypeD at h
  split at h
  · rename_i f rr
    obtain ⟨h1, h2⟩ := some_pair_inj h
    rw [← h2]
    have hs := optNum_suffix rr
    refine ⟨(hs.trans (List.suffix_cons _ _)).trans (List.suffix_cons _ _), ?_⟩
    have := hs.length_le
    simp only [List.length_cons]
    omega
  · rename_i a rr
    split at h
    · obtain ⟨h1, h2⟩ := some_pair_inj h
      rw [← h2]
      have hs : (optNum (optNum rr).2).2 <:+ rr :=
        (optNum_suffix (optNum rr).2).trans (optNum_suffix rr)
      refine ⟨(hs.trans (List.suffix_cons _ _)).trans (List.suffix_cons _ _), ?_⟩
      have := hs.length_le
      simp only [List.length_cons]
      omega
    · exact absurd h (by simp)
  · split at h
    · obtain ⟨h1, h2⟩ := some_pair_inj h
      rw [← h2]
      exact ⟨((List.suffix_cons _ _).trans (List.suffix_cons _ _)).trans
        (List.suffix_cons _ _), by simp only [List.length_cons]; omega⟩
    · exact absurd h (by simp)
  · exact absurd h (by simp)

/-- A color-valued material directive: keyword already consumed, then the
color-type grammar. -/
def colorD (mk : ColorType → MaterialElement) (ts : List Tok) :
    Option (MaterialElement × List Tok) :=
  match colorTypeD ts with
  | some (c, r) => some (mk c, r)
  | none => none

/-- A single-number material directive (`Ns`, `Tr`, `sharpness`, `Ni`). -/
def numD (mk : ℚ → MaterialElement) : List Tok → Option (MaterialElement × List Tok)
  | t :: r =>
    match numTok? t with
    | some q => some (mk q, r)
    | none => none
  | [] => none

/-- `parse_disolve`: either `-halo` plus a number, or a bare number. -/
def disolveD : List Tok → Option (MaterialElement × List Tok)
  | .Halo :: t :: r =>
    match numTok? t with
    | some q => some (.Disolve (.Halo q), r)
    | none => none
  | t :: r =>
    match numTok? t with
    | some q => some (.Disolve (.Alpha q), r)
    | none => none
  | [] => none

/-- `parse_illumination_model`: one integer token, cast `as u32`. -/
def illumD : List Tok → Option (MaterialElement × List Tok)
  | .IntT n :: r => some (.IlluminationModelE ((n % 4294967296).toNat), r)
  | _ => none

/-- A texture-map directive: keyword already consumed, then the option run. -/
def mapD (mk : List OptionElement → MaterialElement) (ts : List Tok) :
    Option (MaterialElement × List Tok) :=
  match optionsRun ts with
  | some (os, r) => some (mk os, r)
  | none => none

/-- One round of `parse_material_set`’s `many1(alt(...))` over the 22
material-element parsers; the alternatives begin with distinct keyword
tokens. -/
def mtlStep : List Tok → Option (MaterialElement × List Tok)
  | [] => none
  | k :: ts =>
    match k with
    | .NewMaterial =>
      match ts with
      | .Str s :: r => some (.Name s, r)
      | _ => none
    | .AmbientColor => colorD .Ambient ts
    | .DiffuseColor => colorD .Diffuse ts
    | .SpecularColor => colorD .Specular ts
    | .EmissiveCoefficient => colorD .EmissiveC ts
    | .SpecularExponent => numD .SpecularExp ts
    | .Disolved => disolveD ts
    | .Transparancy => numD .Transparency ts
    | .TransmissionFactor => colorD .TransmissionF ts
    | .Sharpness => numD .SharpnessE ts
    | .IndexOfRefraction => numD .IndexOfRefractionE ts
    | .IlluminationModel => illumD ts
    | .TextureMapAmbient => mapD (fun o => .TexMapAmbient (ccNew o)) ts
    | .TextureMapDiffuse => mapD (fun o => .TexMapDiffuse (ccNew o)) ts
    | .TextureMapSpecular => mapD (fun o => .TexMapSpecular (ccNew o)) ts
    | .TextureMapShininess => mapD (fun o => .ShininessMap (nccNew o)) ts
    | .TextureMapDisolved => mapD (fun o => .DisolveMap (nccNew o)) ts
    | .DisplacementMap => mapD (fun o => .DisplacementMapE (nccNew o)) ts
    | .Decal => mapD (fun o => .DecalE (nccNew o)) ts
    | .BumpMapT => mapD (fun o => .BumpMapE (bumpNew o)) ts
    | .ReflectionMapT => mapD (fun o => .ReflectionMapE (reflNew o)) ts
    | .AntiAliasMap =>
      match ts with
      | .Str s :: r => some (.AntiAliasE (onOffD s), r)
      | _ => none
    | _ => none

theorem colorD_suffix (mk : ColorType → MaterialElement) (ts r : List Tok)
    (e : MaterialElement) (h : colorD mk ts = some (e, r)) :
    r <:+ ts ∧ r.length < ts.length := by
  unfold colorD at h
  split at h
  · rename_i c rr hm
    obtain ⟨h1, h2⟩ := some_pair_inj h
    rw [← h2]
    exact colorTypeD_suffix ts rr c hm
  · exact absurd h (by simp)

theorem numD_suffix (mk : ℚ → MaterialElement) (ts r : List Tok)
    (e : MaterialElement) (h : numD mk ts = some (e, r)) :
    r <:+ ts ∧ r.length < ts.length := by
  unfold numD at h
  split at h
  · split at h
    · obtain ⟨h1, h2⟩ := some_pair_inj h
      rw [← h2]
      exact ⟨List.suffix_cons _ _, by simp only [List.length_cons]; omega⟩
    · exact absurd h (by simp)
  · exact absurd h (by simp)

theorem disolveD_suffix (ts r : List Tok) (e : MaterialElement)
    (h : disolveD ts = some (e, r)) : r <:+ ts ∧ r.length < ts.length := by
  unfold disolveD at h
  split at h
  · split at h
    · obtain ⟨h1, h2⟩ := some_pair_inj h
      rw [← h2]
      exact ⟨(List.suffix_cons _ _).trans (List.suffix_cons _ _), by simp only [List.length_cons]; omega⟩
    · exact absurd h (by simp)
  · split at h
    · obtain ⟨h1, h2⟩ := some_pair_inj h
      rw [← h2]
      exact ⟨List.suffix_cons _ _, by simp only [List.length_cons]; omega⟩
    · exact absurd h (by simp)
  · exact absurd h (by simp)

theorem illumD_suffix (ts r : List Tok) (e : MaterialElement)
    (h : illumD ts = some (e, r)) : r <:+ ts ∧ r.length < ts.length := by
  unfold illumD at h
  split at h
  · obtain ⟨h1, h2⟩ := some_pair_inj h
    rw [← h2]
    exact ⟨List.suffix_cons _ _, by simp only [List.length_cons]; omega⟩
  · exact absurd h (by simp)

theorem mapD_suffix (mk : List OptionElement → MaterialElement) (ts r : List Tok)
    (e : MaterialElement) (h : mapD mk ts = some (e, r)) :
    r <:+ ts ∧ r.length < ts.length := by
  unfold mapD at h
  split at h
  · rename_i os rr hm
    obtain ⟨h1, h2⟩ := some_pair_inj h
    rw [← h2]
    unfold optionsRun at hm
    have hsuf := many1P_suffix optionStep
      (fun a b c hh => optionStep_suffix a c b hh) ts rr os hm
    refine ⟨hsuf, ?_⟩
    · unfold many1P at hm
      split at hm
      · exact absurd hm (by simp)
      · rename_i e1 r1 h1
        obtain ⟨hh1, hh2⟩ := some_pair_inj hm
        rw [← hh2]
        have l1 := (optionStep_suffix ts r1 e1 h1).2
        have l2 := (manyLoop_suffix optionStep
          (fun a b c hh => optionStep_suffix a c b hh) r1).length_le
        omega
  · exact absurd h (by simp)

theorem mtlStep_suffix (l r : List Tok) (e : MaterialElement)
    (h : mtlStep l = some (e, r)) : l ≠ [] ∧ r <:+ l.tail := by
  cases l with
  | nil => simp [mtlStep] at h
  | cons k ts =>
    refine ⟨by simp, ?_⟩
    simp only [List.tail_cons]
    simp only [mtlStep] at h
    split at h
    · split at h
      · obtain ⟨h1, h2⟩ := some_pair_inj h
        rw [← h2]
        exact List.suffix_cons _ _
      · exact absurd h (by simp)
    · exact (colorD_suffix _ ts r e h).1
    · exact (colorD_suffix _ ts r e h).1
    · exact (colorD_suffix _ ts r e h).1
    · exact (colorD_suffix _ ts r e h).1
    · exact (numD_suffix _ ts r e h).1
    · exact (disolveD_suffix ts r e h).1
    · exact (numD_suffix _ ts r e h).1
    · exact (colorD_suffix _ ts r e h).1
    · exact (numD_suffix _ ts r e h).1
    · exact (numD_suffix _ ts r e h).1
    · exact (illumD_suffix ts r e h).1
    · exact (mapD_suffix _ ts r e h).1
    · exact (mapD_suffix _ ts r e h).1
    · exact (mapD_suffix _ ts r e h).1
    · exact (mapD_suffix _ ts r e h).1
    · exact (mapD_suffix _ ts r e h).1
    · exact (mapD_suffix _ ts r e h).1
    · exact (mapD_suffix _ ts r e h).1
    · exact (mapD_suffix _ ts r e h).1
    · exact (mapD_suffix _ ts r e h).1
    · split at h
      · obtain ⟨h1, h2⟩ := some_pair_inj h
        rw [← h2]
        exact List.suffix_cons _ _
      · exact absurd h (by simp)
    · exact absurd h (by simp)

theorem mtlStep_len (l r : List Tok) (e : MaterialElement)
    (h : mtlStep l = some (e, r)) : r.length < l.length := by
  obtain ⟨hne, hsuf⟩ := mtlStep_suffix l r e h
  cases l with
  | nil => exact absurd rfl hne
  | cons k ts =>
    have := hsuf.length_le
    simp only [List.tail_cons] at this
    simp only [List.length_cons]
    omega

/-- `parse_material_set`: `many1` over the element alternatives. -/
def mtlElems (ts : List Tok) : Option (List MaterialElement × List Tok) :=
  many1P mtlStep ts

/-- `Material::set_from_material_element`: how one element overwrites the
corresponding field of a record (last write wins). -/
def setElem (m : Material) (e : MaterialElement) : Material :=
  match e with
  | .Name n => { m with name := n }
  | .Ambient c => { m with ambient := some c }
  | .Diffuse c => { m with diffuse := some c }
  | .Specular c => { m with specular := some c }
  | .EmissiveC c => { m with emissive_coefficient := some c }
  | .SpecularExp f => { m with specular_exponent := some f }
  | .Disolve d => { m with disolve := some d }
  | .Transparency f => { m with transparancy := some f }
  | .TransmissionF c => { m with transmission_factor := some c }
  | .SharpnessE f => { m with sharpness := some f }
  | .IndexOfRefractionE f => { m with index_of_refraction := some f }
  | .IlluminationModelE u => { m with illumination_mode := some u }
  | .TexMapAmbient cc => { m with texture_map_ambient := some cc }
  | .TexMapDiffuse cc => { m with texture_map_diffuse := some cc }
  | .TexMapSpecular cc => { m with texture_map_specular := some cc }
  | .ShininessMap ncc => { m with shininess_map := some ncc }
  | .DisolveMap ncc => { m with disolve_map := some ncc }
  | .DisplacementMapE ncc => { m with displacement_map := some ncc }
  | .DecalE ncc => { m with decal := some ncc }
  | .BumpMapE bm => { m with bump_map := some bm }
  | .ReflectionMapE rm => { m with reflection_map := some rm }
  | .AntiAliasE b => { m with anti_alias_map := some b }

/-- Material-reducer error enum (`MaterialError`), message text abstracted. -/
inductive MaterialError
  | Parse
  | NewMaterial
deriving DecidableEq

/-- The record-building loop of `material::parse`: a `Name` element starts a
fresh record; any other element before the first `Name` is a hard error;
otherwise it is applied to the most recently started record. The accumulator
holds the records most-recent-first and is reversed at the end. -/
def buildMats : List MaterialElement → List Material →
    Except MaterialError (List Material)
  | [], acc => .ok acc.reverse
  | .Name n :: rest, acc => buildMats rest ({ name := n } :: acc)
  | _ :: _, [] => .error .NewMaterial
  | e :: rest, mcur :: acc => buildMats rest (setElem mcur e :: acc)

/-- `material::parse` of src/material.rs: parse the element sequence
(`many1`; its remainder is discarded on success, and its failure is the
`Parse` error), then run the record-building loop. -/
def materialParse (ts : List Tok) : Except MaterialError (List Material) :=
  match mtlElems ts with
  | none => .error .Parse
  | some (es, _) => buildMats es []

/-- The public error enum (`ObjError` of src/lib.rs). `UnexpectedToken` and
`InvalidOnOffValue` arise only inside the leniency paths, where every caller
immediately logs them and substitutes a default, so they never escape. -/
inductive ObjError
  | Tokenize (e : TokenizeError)
  | ModelParse (e : ModelError)
  | MaterialParse (e : MaterialError)
  | UnexpectedToken (t : Tok)
  | InvalidOnOffValue (s : String)
deriving DecidableEq

/-- `load_obj` of src/lib.rs: tokenize, then reduce. -/
def load_obj (s : String) : Except ObjError Model :=
  match parse_obj s with
  | .ok tokens =>
    match modelParse tokens with
    | .ok m => .ok m
    | .error e => .error (.ModelParse e)
  | .error e => .error (.Tokenize e)

/-- `load_mtl` of src/lib.rs: tokenize, then reduce. -/
def load_mtl (s : String) : Except ObjError (List Material) :=
  match parse_mtl s with
  | .ok tokens =>
    match materialParse tokens with
    | .ok mats => .ok mats
    | .error e => .error (.MaterialParse e)
  | .error e => .error (.Tokenize e)

/-- The model produced by the geometry pipeline for an input string (both
pipeline stages are total, see `parse_obj` and `modelParse`). -/
def objOk (s : String) : Model := parseFold M0 (tokenizeObj s.data)

/-! Generic preservation principles for the geometry fold. -/

theorem parseFold_pres (Q : Model → Prop)
    (hstep : ∀ m e, Q m → Q (applyElem m e)) :
    ∀ (ts : List Tok) (m : Model), Q m → Q (parseFold m ts) := by
  have H : ∀ n ts m, List.length ts ≤ n → Q m → Q (parseFold m ts) := by
    intro n
    induction n with
    | zero =>
      intro ts m hlen hq
      rw [parseFold_unfold]
      cases h : parseStep ts with
      | none => exact hq
      | some pr =>
        obtain ⟨e, r⟩ := pr
        have := parseStep_len ts r e h
        omega
    | succ n ih =>
      intro ts m hlen hq
      rw [parseFold_unfold]
      cases h : parseStep ts with
      | none => exact hq
      | some pr =>
        obtain ⟨e, r⟩ := pr
        have hlt := parseStep_len ts r e h
        exact ih r (applyElem m e) (by omega) (hstep m e hq)
  exact fun ts m => H ts.length ts m le_rfl

theorem vertexD_shape (ts r : List Tok) (e : ModelElement)
    (h : vertexD ts = some (e, r)) : ∃ v, e = .VertexE v := by
  unfold vertexD at h
  split at h
  · split at h
    · obtain ⟨h1, h2⟩ := some_pair_inj h
      exact ⟨_, h1.symm⟩
    · exact absurd h (by simp)
  · exact absurd h (by simp)

theorem normalD_shape (ts r : List Tok) (e : ModelElement)
    (h : normalD ts = some (e, r)) : ∃ v, e = .NormalE v := by
  unfold normalD at h
  split at h
  · split at h
    · obtain ⟨h1, h2⟩ := some_pair_inj h
      exact ⟨_, h1.symm⟩
    · exact absurd h (by simp)
  · exact absurd h (by simp)

theorem textureD_shape (ts r : List Tok) (e : ModelElement)
    (h : textureD ts = some (e, r)) : ∃ v, e = .TextureE v := by
  unfold textureD at h
  split at h
  · split at h
    · obtain ⟨h1, h2⟩ := some_pair_inj h
      exact ⟨_, h1.symm⟩
    · exact absurd h (by simp)
  · exact absurd h (by simp)

theorem faceD_shape (ts r : List Tok) (e : ModelElement)
    (h : faceD ts = some (e, r)) : ∃ v, e = .FaceE v := by
  unfold faceD at h
  split at h
  · obtain ⟨h1, h2⟩ := some_pair_inj h
    exact ⟨_, h1.symm⟩
  · exact absurd h (by simp)

theorem lineD_shape (ts r : List Tok) (e : ModelElement)
    (h : lineD ts = some (e, r)) : ∃ v, e = .LineE v := by
  unfold lineD at h
  split at h
  · obtain ⟨h1, h2⟩ := some_pair_inj h
    exact ⟨_, h1.symm⟩
  · exact absurd h (by simp)

theorem pointD_shape (ts r : List Tok) (e : ModelElement)
    (h : pointD ts = some (e, r)) : ∃ v, e = .PointE v := by
  unfold pointD at h
  split at h
  · obtain ⟨h1, h2⟩ := some_pair_inj h
    exact ⟨_, h1.symm⟩
  · exact absurd h (by simp)

theorem strsD_shape (mk : List String → ModelElement) (ts r : List Tok)
    (e : ModelElement) (h : strsD mk ts = some (e, r)) : ∃ v, e = mk v := by
  unfold strsD at h
  split at h
  · obtain ⟨h1, h2⟩ := some_pair_inj h
    exact ⟨_, h1.symm⟩
  · exact absurd h (by simp)

theorem str1D_shape (mk : String → ModelElement) (ts r : List Tok)
    (e : ModelElement) (h : str1D mk ts = some (e, r)) : ∃ v, e = mk v := by
  unfold str1D at h
  split at h
  · obtain ⟨h1, h2⟩ := some_pair_inj h
    exact ⟨_, h1.symm⟩
  · exact absurd h (by simp)

theorem objNameD_shape (ts r : List Tok) (e : ModelElement)
    (h : objNameD ts = some (e, r)) : ∃ v, e = .ObjNameE v := by
  unfold objNameD at h
  split at h
  · obtain ⟨h1, h2⟩ := some_pair_inj h
    exact ⟨_, h1.symm⟩
  · obtain ⟨h1, h2⟩ := some_pair_inj h
    exact ⟨_, h1.symm⟩
  · exact absurd h (by simp)

theorem smoothingD_shape (ts r : List Tok) (e : ModelElement)
    (h : smoothingD ts = some (e, r)) : ∃ v, e = .SmoothingE v := by
  unfold smoothingD at h
  split at h
  · obtain ⟨h1, h2⟩ := some_pair_inj h
    exact ⟨_, h1.symm⟩
  · obtain ⟨h1, h2⟩ := some_pair_inj h
    exact ⟨_, h1.symm⟩
  · exact absurd h (by simp)

theorem boolD_shape (mk : Bool → ModelElement) (ts r : List Tok)
    (e : ModelElement) (h : boolD mk ts = some (e, r)) : ∃ v, e = mk v := by
  unfold boolD at h
  split at h
  · obtain ⟨h1, h2⟩ := some_pair_inj h
    exact ⟨_, h1.symm⟩
  · exact absurd h (by simp)

theorem lodD_shape (ts r : List Tok) (e : ModelElement)
    (h : lodD ts = some (e, r)) : ∃ v, e = .LodE v := by
  unfold lodD at h
  split at h
  · obtain ⟨h1, h2⟩ := some_pair_inj h
    exact ⟨_, h1.symm⟩
  · exact absurd h (by simp)

/-- A `GroupE` element can only be produced by a `g` keyword token at the
head of the stream. -/
theorem parseStep_groupE (l r : List Tok) (names : List String)
    (h : parseStep l = some (.GroupE names, r)) : Tok.Group ∈ l := by
  cases l with
  | nil => simp [parseStep] at h
  | cons k ts =>
    simp only [parseStep] at h
    split at h
    · obtain ⟨v, hv⟩ := vertexD_shape ts r _ h; cases hv
    · obtain ⟨v, hv⟩ := normalD_shape ts r _ h; cases hv
    · obtain ⟨v, hv⟩ := textureD_shape ts r _ h; cases hv
    · obtain ⟨v, hv⟩ := faceD_shape ts r _ h; cases hv
    · obtain ⟨v, hv⟩ := lineD_shape ts r _ h; cases hv
    · obtain ⟨v, hv⟩ := pointD_shape ts r _ h; cases hv
    · obtain ⟨v, hv⟩ := strsD_shape _ ts r _ h; cases hv
    · obtain ⟨v, hv⟩ := str1D_shape _ ts r _ h; cases hv
    · obtain ⟨v, hv⟩ := objNameD_shape ts r _ h; cases hv
    · obtain ⟨v, hv⟩ := smoothingD_shape ts r _ h; cases hv
    · obtain ⟨v, hv⟩ := boolD_shape _ ts r _ h; cases hv
    · obtain ⟨v, hv⟩ := boolD_shape _ ts r _ h; cases hv
    · obtain ⟨v, hv⟩ := boolD_shape _ ts r _ h; cases hv
    · obtain ⟨v, hv⟩ := lodD_shape ts r _ h; cases hv
    · obtain ⟨v, hv⟩ := str1D_shape _ ts r _ h; cases hv
    · obtain ⟨v, hv⟩ := str1D_shape _ ts r _ h; cases hv
    · obtain ⟨v, hv⟩ := strsD_shape _ ts r _ h; cases hv
    · obtain ⟨v, hv⟩ := str1D_shape _ ts r _ h; cases hv
    · simp
    · exact absurd h (by simp)

theorem parseFold_pres_nog (Q : Model → Prop)
    (hstep : ∀ m e, (∀ ns, e ≠ .GroupE ns) → Q m → Q (applyElem m e)) :
    ∀ (ts : List Tok) (m : Model), Tok.Group ∉ ts → Q m → Q (parseFold m ts) := by
  have H : ∀ n ts m, List.length ts ≤ n → Tok.Group ∉ ts → Q m → Q (parseFold m ts) := by
    intro n
    induction n with
    | zero =>
      intro ts m hlen hng hq
      rw [parseFold_unfold]
      cases h : parseStep ts with
      | none => exact hq
      | some pr =>
        obtain ⟨e, r⟩ := pr
        have := parseStep_len ts r e h
        omega
    | succ n ih =>
      intro ts m hlen hng hq
      rw [parseFold_unfold]
      cases h : parseStep ts with
      | none => exact hq
      | some pr =>
        obtain ⟨e, r⟩ := pr
        have hlt := parseStep_len ts r e h
        have hng2 : Tok.Group ∉ r := by
          intro hmem
          obtain ⟨hne, hsuf⟩ := parseStep_suffix ts r e h
          have : Tok.Group ∈ ts.tail := hsuf.mem hmem
          exact hng (List.mem_of_mem_tail this)
        have heok : ∀ ns, e ≠ .GroupE ns := by
          intro ns hcontra
          subst hcontra
          exact hng (parseStep_groupE ts r ns h)
        exact ih r (applyElem m e) (by omega) hng2 (hstep m e heok hq)
  exact fun ts m => H ts.length ts m le_rfl

/-! Lookup lemmas for the group-map folds used by `applyElem`. -/

theorem foldl_mapInsert_isSome (names : List String) (gs : SMap Group) (k : String)
    (h : (mapGet gs k).isSome) :
    (mapGet (names.foldl (fun m g => mapInsert m g G0) gs) k).isSome := by
  induction names generalizing gs with
  | nil => exact h
  | cons n names ih =>
    apply ih
    rw [mapGet_mapInsert]
    split
    · simp
    · exact h

theorem foldl_mapAdjust_isSome (names : List String) (gs : SMap Group) (k : String)
    (f : Group → Group) (d : Group) (h : (mapGet gs k).isSome) :
    (mapGet (names.foldl (fun m g => mapAdjust m g f d) gs) k).isSome := by
  induction names generalizing gs with
  | nil => exact h
  | cons n names ih =>
    apply ih
    rw [mapGet_mapAdjust]
    split
    · simp
    · exact h

theorem foldl_mapInsert_not_mem (names : List String) (gs : SMap Group) (g : String)
    (h : g ∉ names) :
    mapGet (names.foldl (fun m n => mapInsert m n G0) gs) g = mapGet gs g := by
  induction names generalizing gs with
  | nil => rfl
  | cons n names ih =>
    have h1 : g ∉ names := fun hm => h (by simp [hm])
    have h2 : n ≠ g := fun he => h (by simp [he])
    simp only [List.foldl_cons]
    rw [ih _ h1, mapGet_mapInsert, if_neg h2]

theorem foldl_mapInsert_mem (names : List String) (gs : SMap Group) (g : String)
    (h : g ∈ names) :
    mapGet (names.foldl (fun m n => mapInsert m n G0) gs) g = some G0 := by
  induction names generalizing gs with
  | nil => simp at h
  | cons n names ih =>
    by_cases hm : g ∈ names
    · exact ih _ hm
    · have : g = n := by
        rcases List.mem_cons.mp h with h1 | h1
        · exact h1
        · exact absurd h1 hm
      subst this
      simp only [List.foldl_cons]
      rw [foldl_mapInsert_not_mem names _ g hm, mapGet_mapInsert, if_pos rfl]

theorem foldl_mapInsert_lookup (names : List String) (gs : SMap Group)
    (g : String) (G : Group)
    (h : mapGet (names.foldl (fun m n => mapInsert m n G0) gs) g = some G) :
    G = G0 ∨ mapGet gs g = some G := by
  induction names generalizing gs with
  | nil => exact Or.inr h
  | cons n names ih =>
    rcases ih _ h with h1 | h1
    · exact Or.inl h1
    · rw [mapGet_mapInsert] at h1
      split at h1
      · exact Or.inl (Option.some.injEq .. ▸ h1).symm
      · exact Or.inr h1

theorem foldl_mapAdjust_lookup (P : Group → Prop) (names : List String)
    (gs : SMap Group) (f : Group → Group) (d : Group)
    (hf : ∀ G, P G → P (f G)) (hfd : P (f d))
    (hgs : ∀ g G, mapGet gs g = some G → P G) :
    ∀ g G, mapGet (names.foldl (fun m n => mapAdjust m n f d) gs) g = some G → P G := by
  induction names generalizing gs with
  | nil => exact hgs
  | cons n names ih =>
    apply ih
    intro g G h
    rw [mapGet_mapAdjust] at h
    split at h
    · have hG : G = f ((mapGet gs n).getD d) := (Option.some.injEq .. ▸ h).symm
      subst hG
      cases hv : mapGet gs n with
      | none => simpa [hv] using hfd
      | some v =>
        have := hgs n v hv
        simpa [hv] using hf v this
    · exact hgs g G h

theorem applyElem_default_isSome (m : Model) (e : ModelElement)
    (h : (mapGet m.groups ("default")).isSome = true) :
    (mapGet (applyElem m e).groups ("default")).isSome = true := by
  cases e <;>
    first
      | exact h
      | exact foldl_mapInsert_isSome _ m.groups _ h
      | exact foldl_mapAdjust_isSome m.current_group m.groups _ _ _ h

/-- Invariant of the no-group-directive case: the active set stays
`["default"]` and the per-entity maps have no key other than "default". -/
def onlyDefault (m : Model) : Prop :=
  m.current_group = [("default")] ∧
  ∀ g, g ≠ ("default") →
    mapGet m.faces g = none ∧ mapGet m.lines g = none ∧ mapGet m.points g = none

theorem applyElem_onlyDefault (m : Model) (e : ModelElement)
    (hne : ∀ ns, e ≠ .GroupE ns) (h : onlyDefault m) :
    onlyDefault (applyElem m e) := by
  obtain ⟨hcg, hmaps⟩ := h
  cases e with
  | GroupE ns => exact absurd rfl (hne ns)
  | FaceE f =>
    refine ⟨hcg, fun g hg => ⟨?_, (hmaps g hg).2.1, (hmaps g hg).2.2⟩⟩
    show mapGet (m.current_group.foldl _ m.faces) g = none
    rw [hcg]
    simp only [List.foldl_cons, List.foldl_nil]
    rw [mapGet_mapAdjust, if_neg (fun hh => hg hh.symm)]
    exact (hmaps g hg).1
  | LineE l =>
    refine ⟨hcg, fun g hg => ⟨(hmaps g hg).1, ?_, (hmaps g hg).2.2⟩⟩
    show mapGet (m.current_group.foldl _ m.lines) g = none
    rw [hcg]
    simp only [List.foldl_cons, List.foldl_nil]
    rw [mapGet_mapAdjust, if_neg (fun hh => hg hh.symm)]
    exact (hmaps g hg).2.1
  | PointE p =>
    refine ⟨hcg, fun g hg => ⟨(hmaps g hg).1, (hmaps g hg).2.1, ?_⟩⟩
    show mapGet (m.current_group.foldl _ m.points) g = none
    rw [hcg]
    simp only [List.foldl_cons, List.foldl_nil]
    rw [mapGet_mapAdjust, if_neg (fun hh => hg hh.symm)]
    exact (hmaps g hg).2.2
  | _ => exact ⟨hcg, hmaps⟩

/-- C1: every successful geometry parse (and the parse always succeeds)
yields a groups map containing the key "default"; and on a token stream
containing no group directive token, the faces/lines/points maps hold no key
other than "default" — every face, line and point record is filed under
"default". -/
theorem c1_default_group :
    (∀ (s : String) (m : Model), load_obj s = .ok m →
       (mapGet m.groups ("default")).isSome = true)
    ∧ (∀ (ts : List Tok) (m : Model), Tok.Group ∉ ts → modelParse ts = .ok m →
       ∀ g, g ≠ ("default") →
         mapGet m.faces g = none ∧ mapGet m.lines g = none ∧ mapGet m.points g = none) := by
  constructor
  · intro s m h
    simp only [load_obj, parse_obj, modelParse, Except.ok.injEq] at h
    subst h
    exact parseFold_pres (fun mo => (mapGet mo.groups ("default")).isSome = true)
      applyElem_default_isSome (tokenizeObj s.data) M0 (by decide)
  · intro ts m hng h g hg
    simp only [modelParse, Except.ok.injEq] at h
    subst h
    exact (parseFold_pres_nog onlyDefault applyElem_onlyDefault ts M0 hng
      ⟨rfl, fun g2 hg2 => ⟨rfl, rfl, rfl⟩⟩).2 g hg

/-- Witness for C1 at a concrete input: a stream with one face, one line and
one point directive and no group directive. -/
theorem c1_default_group_witness :
    load_obj ("f 1\nl 2\np 3\n") = .ok (objOk ("f 1\nl 2\np 3\n"))
    ∧ (mapGet (objOk ("f 1\nl 2\np 3\n")).groups ("default")).isSome = true
    ∧ mapGet (objOk ("f 1\nl 2\np 3\n")).faces ("other") = none
    ∧ mapGet (objOk ("f 1\nl 2\np 3\n")).lines ("other") = none
    ∧ mapGet (objOk ("f 1\nl 2\np 3\n")).points ("other") = none := by
  have h1 := c1_default_group.1 ("f 1\nl 2\np 3\n") (objOk ("f 1\nl 2\np 3\n")) rfl
  have h2 := c1_default_group.2 (tokenizeObj ("f 1\nl 2\np 3\n").data)
    (objOk ("f 1\nl 2\np 3\n")) (by decide) rfl ("other") (by decide)
  exact ⟨rfl, h1, h2.1, h2.2.1, h2.2.2⟩

/-- C2 counterexample: an unrecognized bare word ("qq") in the middle of the
stream does not make the parse fail — `load_obj` returns `Ok` with a partial
model holding the vertex parsed before the word, while the face directive
after it has been silently dropped. -/
theorem c2_counterexample :
    load_obj ("v 1 2 3\nqq\nf 1 2 3\n") = .ok (objOk ("v 1 2 3\nqq\nf 1 2 3\n"))
    ∧ (objOk ("v 1 2 3\nqq\nf 1 2 3\n")).vertices.length = 1
    ∧ mapGet (objOk ("v 1 2 3\nqq\nf 1 2 3\n")).faces ("default") = none := by
  exact ⟨rfl, by decide, by decide⟩

/-- C2 amended: the geometry parse never fails — `load_obj` is total and
returns `Ok` on every input; the reduction stops at the first position no
directive matches (in particular at any bare string token) and the remaining
tokens are discarded, leaving the partial model built so far. -/
theorem c2_no_failure_partial_model :
    (∀ s : String, load_obj s = .ok (objOk s))
    ∧ (∀ (m : Model) (w : String) (rest : List Tok),
        parseFold m (Tok.Str w :: rest) = m) := by
  constructor
  · intro s
    rfl
  · intro m w rest
    rw [parseFold_unfold]
    rfl

/-- A face element as written in source text: vertex index and optional
texture/normal indices. -/
abbrev FaceSpec : Type := Int × Option Int × Option Int

/-- The token run a face-element spec produces in source text: `v`, `v/t`,
`v//n`, or `v/t/n`. -/
def renderSpec : FaceSpec → List Tok
  | (v, none, none) => [.IntT v]
  | (v, some t, none) => [.IntT v, .Slash, .IntT t]
  | (v, none, some n) => [.IntT v, .Slash, .Slash, .IntT n]
  | (v, some t, some n) => [.IntT v, .Slash, .IntT t, .Slash, .IntT n]

/-- The token run of a whole face-element list. -/
def renderFaceSpecs (specs : List FaceSpec) : List Tok :=
  specs.foldr (fun sp acc => renderSpec sp ++ acc) []

/-- The `FaceElement` record a spec denotes, indices verbatim. -/
def specElem : FaceSpec → FaceElement
  | (v, t, n) => { vertex_index := v, texture_index := t, normal_index := n }

theorem renderFaceSpecs_shape (specs : List FaceSpec) :
    renderFaceSpecs specs = [] ∨ ∃ v rest, renderFaceSpecs specs = Tok.IntT v :: rest := by
  cases specs with
  | nil => exact Or.inl rfl
  | cons sp specs =>
    obtain ⟨v, t, n⟩ := sp
    right
    cases t <;> cases n <;> exact ⟨v, _, rfl⟩

theorem faceElem1_render (sp : FaceSpec) (rest : List Tok)
    (hrest : rest = [] ∨ ∃ v r2, rest = Tok.IntT v :: r2) :
    faceElem1 (renderSpec sp ++ rest) = some (specElem sp, rest) := by
  obtain ⟨v, t, n⟩ := sp
  rcases hrest with h | ⟨v2, r2, h⟩ <;> subst h <;> cases t <;> cases n <;> rfl

theorem manyLoop_faceSpecs (specs : List FaceSpec) :
    manyLoop faceElem1 (renderFaceSpecs specs) = (specs.map specElem, []) := by
  induction specs with
  | nil =>
    rw [manyLoop_unfold faceElem1 (fun a b c hh => (faceElem1_suffix a c b hh).2)]
    rfl
  | cons sp specs ih =>
    rw [manyLoop_unfold faceElem1 (fun a b c hh => (faceElem1_suffix a c b hh).2),
      show renderFaceSpecs (sp :: specs) = renderSpec sp ++ renderFaceSpecs specs from rfl,
      faceElem1_render sp _ (renderFaceSpecs_shape specs)]
    simp [ih]

theorem many1P_faceSpecs (specs : List FaceSpec) (h : specs ≠ []) :
    many1P faceElem1 (renderFaceSpecs specs) = some (specs.map specElem, []) := by
  cases specs with
  | nil => exact absurd rfl h
  | cons sp specs =>
    unfold many1P
    rw [show renderFaceSpecs (sp :: specs) = renderSpec sp ++ renderFaceSpecs specs from rfl,
      faceElem1_render sp _ (renderFaceSpecs_shape specs)]
    simp [manyLoop_faceSpecs specs]

/-- C3 amended: face elements may mix the fully- and partially-specified
slash forms in one directive and every index is stored 1-based verbatim (the
face directive parser maps any nonempty rendered element list back to
exactly its specs); the documented concrete example holds through the full
pipeline; but a face directive with zero elements is NOT an overall parse
failure: the directive parser rejects it, the fold stops, and `load_obj`
still returns `Ok` with no face recorded. -/
theorem c3_face_grammar :
    (∀ (specs : List FaceSpec), specs ≠ [] →
       parseStep (Tok.Face :: renderFaceSpecs specs) =
         some (.FaceE { elements := specs.map specElem, smoothing_group := 0 }, []))
    ∧ mapGet (objOk ("f 1/1/1 2/2/2 3//3 4//4\n")).faces ("default") =
        some [{ elements :=
                  [{ vertex_index := 1, texture_index := some 1, normal_index := some 1 },
                   { vertex_index := 2, texture_index := some 2, normal_index := some 2 },
                   { vertex_index := 3, texture_index := none, normal_index := some 3 },
                   { vertex_index := 4, texture_index := none, normal_index := some 4 }],
                smoothing_group := 0 }]
    ∧ load_obj ("f\n") = .ok (objOk ("f\n"))
    ∧ mapGet (objOk ("f\n")).faces ("default") = none := by
  refine ⟨?_, by decide, rfl, by decide⟩
  intro specs h
  simp only [parseStep, faceD]
  rw [many1P_faceSpecs specs h]

/-- Witness for C3 at a concrete spec list. -/
theorem c3_face_grammar_witness :
    parseStep (Tok.Face :: renderFaceSpecs [((1 : Int), some 2, none)]) =
      some (.FaceE { elements := [{ vertex_index := 1, texture_index := some 2,
                                    normal_index := none }],
                     smoothing_group := 0 }, []) := by
  exact c3_face_grammar.1 [((1 : Int), some 2, none)] (by decide)

/-- C3 counterexample: a face directive with zero elements ("f" alone) does
not fail the parse — `load_obj` returns `Ok` and the model has no faces. -/
theorem c3_counterexample :
    load_obj ("f\n") = .ok (objOk ("f\n")) ∧ (objOk ("f\n")).faces = [] := by
  exact ⟨rfl, by decide⟩

theorem manyLoop_strElem (names : List String) :
    manyLoop strElem1 (names.map Tok.Str) = (names, []) := by
  induction names with
  | nil =>
    rw [manyLoop_unfold strElem1 (fun a b c hh => (strElem1_suffix a c b hh).2)]
    rfl
  | cons n names ih =>
    rw [manyLoop_unfold strElem1 (fun a b c hh => (strElem1_suffix a c b hh).2)]
    simp only [List.map_cons]
    simp [strElem1, ih]

/-- C5 amended: a group directive replaces the active group set with the
listed names, and unconditionally (re)inserts a fresh all-default settings
record for every named group, overwriting any previously stored settings. -/
theorem c5_group_reset (m : Model) (names : List String) (g : String)
    (h1 : names ≠ []) (h2 : g ∈ names) :
    (applyElem m (.GroupE names)).current_group = names
    ∧ mapGet (applyElem m (.GroupE names)).groups g = some G0
    ∧ parseStep (Tok.Group :: names.map Tok.Str) = some (.GroupE names, []) := by
  refine ⟨rfl, foldl_mapInsert_mem names m.groups g h2, ?_⟩
  simp only [parseStep, strsD]
  cases names with
  | nil => exact absurd rfl h1
  | cons n ns =>
    unfold many1P
    simp only [List.map_cons]
    simp [strElem1, manyLoop_strElem ns]

/-- Witness for C5 at a concrete group list. -/
theorem c5_group_reset_witness :
    (applyElem M0 (.GroupE [("aa")])).current_group = [("aa")]
    ∧ mapGet (applyElem M0 (.GroupE [("aa")])).groups ("aa") = some G0
    ∧ parseStep (Tok.Group :: [(("aa") : String)].map Tok.Str) =
        some (.GroupE [("aa")], []) := by
  exact c5_group_reset M0 [("aa")] ("aa") (by decide) (by decide)

/-- C5 counterexample: after `g aa` then `usemtl mm`, the group "aa" carries
material "mm"; re-issuing `g aa` resets its settings record to all defaults,
so the previously stored material name is NOT left unchanged. -/
theorem c5_counterexample :
    load_obj ("g aa\nusemtl mm\ng aa\n") = .ok (objOk ("g aa\nusemtl mm\ng aa\n"))
    ∧ mapGet (objOk ("g aa\nusemtl mm\n")).groups ("aa") =
        some { material_name := ("mm") }
    ∧ mapGet (objOk ("g aa\nusemtl mm\ng aa\n")).groups ("aa") = some G0
    ∧ G0.material_name = ("") := by
  exact ⟨rfl, by decide, by decide, rfl⟩

/-- The bevel/color-interp/dissolve-interp flags stored in a group record. -/
def flagsOff (G : Group) : Prop :=
  G.bevel = false ∧ G.c_interp = false ∧ G.d_interp = false

theorem applyElem_flagsOff (m : Model) (e : ModelElement)
    (h : ∀ g G, mapGet m.groups g = some G → flagsOff G) :
    ∀ g G, mapGet (applyElem m e).groups g = some G → flagsOff G := by
  cases e with
  | GroupE ns =>
    intro g G hg
    rcases foldl_mapInsert_lookup ns m.groups g G hg with h1 | h1
    · subst h1
      exact ⟨rfl, rfl, rfl⟩
    · exact h g G h1
  | MaterialE name =>
    exact foldl_mapAdjust_lookup flagsOff m.current_group m.groups _ _
      (fun G hG => hG) ⟨rfl, rfl, rfl⟩ h
  | TextureMapE name =>
    exact foldl_mapAdjust_lookup flagsOff m.current_group m.groups _ _
      (fun G hG => hG) ⟨rfl, rfl, rfl⟩ h
  | _ => exact h

/-- C6 amended: the bevel / c_interp / d_interp directives do parse their
boolean-like argument (Rust `str::parse::<bool>`, so only the literal word
"true" yields `true`, with `false` as the fallback), but the fold discards
the flag entirely: applying the element leaves the model unchanged, and in
every model the geometry fold can produce, every stored group record still
carries the default `false` in all three flag fields. -/
theorem c6_interp_flags_discarded :
    (∀ (w : String) (rest : List Tok),
       parseStep (Tok.Bevel :: Tok.Str w :: rest) = some (.BevelE (w == ("true")), rest)
       ∧ parseStep (Tok.CInterp :: Tok.Str w :: rest) = some (.CInterpE (w == ("true")), rest)
       ∧ parseStep (Tok.DInterp :: Tok.Str w :: rest) = some (.DInterpE (w == ("true")), rest))
    ∧ (∀ (m : Model) (b : Bool),
       applyElem m (.BevelE b) = m ∧ applyElem m (.CInterpE b) = m
       ∧ applyElem m (.DInterpE b) = m)
    ∧ (∀ (ts : List Tok) (g : String) (G : Group),
       mapGet (parseFold M0 ts).groups g = some G → flagsOff G) := by
  refine ⟨fun w rest => ⟨rfl, rfl, rfl⟩, fun m b => ⟨rfl, rfl, rfl⟩, ?_⟩
  intro ts
  apply parseFold_pres (fun mo => ∀ g G, mapGet mo.groups g = some G → flagsOff G)
    applyElem_flagsOff ts M0
  intro g G h
  simp only [M0, mapGet] at h
  split at h
  · cases h
    exact ⟨rfl, rfl, rfl⟩
  · exact absurd h (by simp)

/-- Witness for C6: the initial model's "default" record has all flags off. -/
theorem c6_interp_flags_discarded_witness : flagsOff G0 := by
  exact c6_interp_flags_discarded.2.2 [] ("default") G0 (by decide)

/-- C6 counterexample: after `bevel true`, `c_interp true`, `d_interp true`
the active "default" group's record still has all three flags `false` — the
parsed flags are not stored on the active groups. -/
theorem c6_counterexample :
    load_obj ("bevel true\nc_interp true\nd_interp true\n") =
      .ok (objOk ("bevel true\nc_interp true\nd_interp true\n"))
    ∧ mapGet (objOk ("bevel true\nc_interp true\nd_interp true\n")).groups ("default") =
        some G0
    ∧ G0.bevel = false ∧ G0.c_interp = false ∧ G0.d_interp = false := by
  exact ⟨rfl, by decide, rfl, rfl, rfl⟩

/-- C7 amended: a smoothing directive whose string argument is neither "off"
nor "on" does not abort the parse — the fold continues on the rest of the
stream with the carried smoothing id set to the leniency default 0; the word
"on", however, sets the id to 1 (not 0), and "off" sets it to 0. -/
theorem c7_smoothing_leniency :
    (∀ (m : Model) (w : String) (rest : List Tok), w ≠ ("off") → w ≠ ("on") →
       parseFold m (Tok.Smoothing :: Tok.Str w :: rest) =
         parseFold { m with current_smoothing_group := 0 } rest)
    ∧ (∀ (m : Model) (rest : List Tok),
       parseFold m (Tok.Smoothing :: Tok.Str ("on") :: rest) =
         parseFold { m with current_smoothing_group := 1 } rest)
    ∧ (∀ (m : Model) (rest : List Tok),
       parseFold m (Tok.Smoothing :: Tok.Str ("off") :: rest) =
         parseFold { m with current_smoothing_group := 0 } rest) := by
  refine ⟨?_, ?_, ?_⟩
  · intro m w rest h1 h2
    rw [parseFold_unfold]
    simp only [parseStep, smoothingD, if_neg h2]
    rfl
  · intro m rest
    rw [parseFold_unfold]
    rfl
  · intro m rest
    rw [parseFold_unfold]
    rfl

/-- Witness for C7 at a concrete malformed word. -/
theorem c7_smoothing_leniency_witness :
    parseFold M0 (Tok.Smoothing :: Tok.Str ("banana") :: []) =
      parseFold { M0 with current_smoothing_group := 0 } [] := by
  exact c7_smoothing_leniency.1 M0 ("banana") [] (by decide) (by decide)

/-- C7 counterexample: the word "on" is a string that is neither "off" nor
an integer, yet the carried smoothing id becomes 1, not the claimed 0 — the
face parsed afterwards is stamped with smoothing group 1. -/
theorem c7_counterexample :
    load_obj ("s on\nf 1\n") = .ok (objOk ("s on\nf 1\n"))
    ∧ mapGet (objOk ("s on\nf 1\n")).faces ("default") =
        some [{ elements := [{ vertex_index := 1 }], smoothing_group := 1 }]
    ∧ (1 : Int) ≠ 0 := by
  exact ⟨rfl, by decide, by decide⟩

theorem buildMats_cons_ne (e : MaterialElement) (rest : List MaterialElement)
    (mcur : Material) (acc : List Material) (h : ∀ n, e ≠ .Name n) :
    buildMats (e :: rest) (mcur :: acc) = buildMats rest (setElem mcur e :: acc) := by
  cases e
  case Name n => exact absurd rfl (h n)
  all_goals rfl

/-- C8: a material element occurring before the first new-material element
makes the material build return the hard `NewMaterial` error (so the whole
parse errors); and every element after a boundary is applied to the most
recently started record, leaving earlier records untouched. -/
theorem c8_record_boundary :
    (∀ (e : MaterialElement) (rest : List MaterialElement),
       (∀ n, e ≠ .Name n) → buildMats (e :: rest) [] = .error .NewMaterial)
    ∧ (∀ (es : List MaterialElement) (mcur : Material) (acc : List Material),
       (∀ e ∈ es, ∀ n, e ≠ .Name n) →
       buildMats es (mcur :: acc) = .ok ((es.foldl setElem mcur :: acc).reverse))
    ∧ (∀ (ts : List Tok) (e : MaterialElement) (es : List MaterialElement) (r : List Tok),
       mtlElems ts = some (e :: es, r) → (∀ n, e ≠ .Name n) →
       materialParse ts = .error .NewMaterial) := by
  have part1 : ∀ (e : MaterialElement) (rest : List MaterialElement),
      (∀ n, e ≠ .Name n) → buildMats (e :: rest) [] = .error .NewMaterial := by
    intro e rest h
    cases e
    case Name n => exact absurd rfl (h n)
    all_goals rfl
  refine ⟨part1, ?_, ?_⟩
  · intro es
    induction es with
    | nil =>
      intro mcur acc h
      rfl
    | cons e es ih =>
      intro mcur acc h
      rw [buildMats_cons_ne e es mcur acc (h e (by simp)),
        ih (setElem mcur e) acc (fun e2 he2 => h e2 (by simp [he2]))]
      simp
  · intro ts e es r hm hne
    unfold materialParse
    rw [hm]
    exact part1 e es hne

/-- Witness for C8: a sharpness element with no preceding new-material
errors; the same element after a started record lands on that record. -/
theorem c8_record_boundary_witness :
    buildMats [MaterialElement.SharpnessE 2] [] = .error .NewMaterial
    ∧ buildMats [MaterialElement.SharpnessE 2] [{ name := ("mm") }] =
        .ok [{ name := ("mm"), sharpness := some 2 }] := by
  constructor
  · exact c8_record_boundary.1 (.SharpnessE 2) [] (fun n h => by cases h)
  · have h := c8_record_boundary.2.1 [.SharpnessE 2] { name := ("mm") } []
      (by intro e he n hn
          simp only [List.mem_singleton] at he
          subst he
          cases hn)
    simpa using h

theorem foldl_ccApply_fileName (names : List String) (m : ColorCorrectedMap) :
    (names.foldl (fun acc n => ccApply acc (.FileName n)) m).file_name =
      names.getLastD m.file_name := by
  induction names generalizing m with
  | nil => rfl
  | cons n names ih =>
    simp only [List.foldl_cons, List.getLastD_cons]
    exact ih (ccApply m (.FileName n))

theorem foldl_nccApply_fileName (names : List String) (m : NonColorCorrectedMap) :
    (names.foldl (fun acc n => nccApply acc (.FileName n)) m).file_name =
      names.getLastD m.file_name := by
  induction names generalizing m with
  | nil => rfl
  | cons n names ih =>
    simp only [List.foldl_cons, List.getLastD_cons]
    exact ih (nccApply m (.FileName n))

theorem manyLoop_fileNames (names : List String) :
    manyLoop optionStep (names.map Tok.Str) = (names.map OptionElement.FileName, []) := by
  induction names with
  | nil =>
    rw [manyLoop_unfold optionStep (fun a b c hh => (optionStep_suffix a c b hh).2)]
    rfl
  | cons n names ih =>
    rw [manyLoop_unfold optionStep (fun a b c hh => (optionStep_suffix a c b hh).2)]
    simp only [List.map_cons]
    rw [show optionStep (Tok.Str n :: names.map Tok.Str) =
        some (.FileName n, names.map Tok.Str) from rfl]
    simp [ih]

/-- C9 amended: the option run is terminated by the first token that is
neither a recognized option nor a bare string — NOT by the first filename:
every bare string token in the run is read as a (new) filename, later ones
overwriting earlier ones in the map record (last write wins), and recognized
options appearing after a filename are still consumed into the same record. -/
theorem c9_option_run (names : List String) (f w : String) (h : names ≠ []) :
    optionsRun (names.map Tok.Str) = some (names.map OptionElement.FileName, [])
    ∧ (ccNew (names.map OptionElement.FileName)).file_name = names.getLastD ("")
    ∧ (nccNew (names.map OptionElement.FileName)).file_name = names.getLastD ("")
    ∧ optionsRun [Tok.Str f, Tok.OptionBlendU, Tok.Str w] =
        some ([.FileName f, .BlendU (onOffD w)], []) := by
  refine ⟨?_, ?_, ?_, ?_⟩
  · cases names with
    | nil => exact absurd rfl h
    | cons n ns =>
      unfold optionsRun many1P
      simp only [List.map_cons]
      rw [show optionStep (Tok.Str n :: ns.map Tok.Str) =
          some (.FileName n, ns.map Tok.Str) from rfl]
      simp [manyLoop_fileNames ns]
  · unfold ccNew
    rw [List.foldl_map]
    exact foldl_ccApply_fileName names {}
  · unfold nccNew
    rw [List.foldl_map]
    exact foldl_nccApply_fileName names {}
  · have h2 : manyLoop optionStep [Tok.OptionBlendU, Tok.Str w] =
        ([OptionElement.BlendU (onOffD w)], []) := by
      rw [manyLoop_unfold optionStep (fun a b c hh => (optionStep_suffix a c b hh).2)]
      rw [show optionStep [Tok.OptionBlendU, Tok.Str w] =
          some (.BlendU (onOffD w), ([] : List Tok)) from rfl]
      show (OptionElement.BlendU (onOffD w) :: (manyLoop optionStep ([] : List Tok)).1,
        (manyLoop optionStep ([] : List Tok)).2) = ([OptionElement.BlendU (onOffD w)], [])
      rw [manyLoop_unfold optionStep (fun a b c hh => (optionStep_suffix a c b hh).2)]
      rfl
    unfold optionsRun many1P
    rw [show optionStep [Tok.Str f, Tok.OptionBlendU, Tok.Str w] =
        some (.FileName f, [Tok.OptionBlendU, Tok.Str w]) from rfl]
    show some (OptionElement.FileName f ::
        (manyLoop optionStep [Tok.OptionBlendU, Tok.Str w]).1,
      (manyLoop optionStep [Tok.OptionBlendU, Tok.Str w]).2) =
      some ([.FileName f, .BlendU (onOffD w)], [])
    rw [h2]

/-- Witness for C9 at a concrete two-filename run. -/
theorem c9_option_run_witness :
    optionsRun ([("aq"), ("bq")].map Tok.Str) =
      some ([("aq"), ("bq")].map OptionElement.FileName, [])
    ∧ (ccNew ([("aq"), ("bq")].map OptionElement.FileName)).file_name =
        [("aq"), ("bq")].getLastD ("")
    ∧ (nccNew ([("aq"), ("bq")].map OptionElement.FileName)).file_name =
        [("aq"), ("bq")].getLastD ("")
    ∧ optionsRun [Tok.Str ("f.png"), Tok.OptionBlendU, Tok.Str ("on")] =
        some ([.FileName ("f.png"), .BlendU (onOffD ("on"))], []) := by
  exact c9_option_run [("aq"), ("bq")] ("f.png") ("on") (by decide)

/-- C9 counterexample: in `map_Ka aq.mpc bq.mpc` the first filename does not
terminate the run — the second string token is consumed into the same map
record and overwrites the stored filename; likewise a recognized option after
the filename (`map_Kd dq.png -blendu on`) is still consumed. -/
theorem c9_counterexample :
    load_mtl ("newmtl mm\nmap_Ka aq.mpc bq.mpc\n") =
      .ok [{ name := ("mm"),
             texture_map_ambient := some { file_name := ("bq.mpc") } }]
    ∧ load_mtl ("newmtl mm\nmap_Kd dq.png -blendu on\n") =
      .ok [{ name := ("mm"),
             texture_map_diffuse := some { file_name := ("dq.png"),
                                           blend_u := some true } }] := by
  exact ⟨rfl, rfl⟩

/-- A vertex declaration as a token run: three mandatory argument tokens and
an optional fourth (the w component). -/
abbrev VSpec : Type := Tok × Tok × Tok × Option Tok

/-- Well-formedness of a vertex declaration: every argument token numeric. -/
def specOk (s : VSpec) : Prop :=
  (numTok? s.1).isSome = true ∧ (numTok? s.2.1).isSome = true
  ∧ (numTok? s.2.2.1).isSome = true ∧ ∀ t ∈ s.2.2.2, (numTok? t).isSome = true

/-- The token run of one vertex declaration. -/
def renderV (s : VSpec) : List Tok :=
  Tok.Vertex :: s.1 :: s.2.1 :: s.2.2.1 :: s.2.2.2.toList

/-- The token run of a block of vertex declarations. -/
def renderVB (vb : List VSpec) : List Tok :=
  vb.foldr (fun s acc => renderV s ++ acc) []

/-- The vertex record a declaration denotes. -/
def specVert (s : VSpec) : Vertex :=
  { x := (numTok? s.1).getD 0, y := (numTok? s.2.1).getD 0,
    z := (numTok? s.2.2.1).getD 0, w := s.2.2.2.bind numTok? }

/-- The head of the stream (if any) is not a numeric token. -/
def headNotNum (ts : List Tok) : Prop := ∀ t ∈ ts.head?, numTok? t = none

theorem optNum_none (ts : List Tok) (h : headNotNum ts) : optNum ts = (none, ts) := by
  cases ts with
  | nil => rfl
  | cons t r =>
    have ht : numTok? t = none := h t (by simp)
    simp [optNum, ht]

theorem parseStep_vertex (s : VSpec) (rest : List Tok) (hs : specOk s)
    (hrest : s.2.2.2 = none → headNotNum rest) :
    parseStep (renderV s ++ rest) = some (.VertexE (specVert s), rest) := by
  obtain ⟨a, b, c, d⟩ := s
  obtain ⟨ha, hb, hc, hd⟩ := hs
  obtain ⟨qa, ha2⟩ := Option.isSome_iff_exists.mp ha
  obtain ⟨qb, hb2⟩ := Option.isSome_iff_exists.mp hb
  obtain ⟨qc, hc2⟩ := Option.isSome_iff_exists.mp hc
  cases d with
  | none =>
    have hre := optNum_none rest (hrest rfl)
    simp only [renderV, Option.toList, List.cons_append, List.nil_append, parseStep,
      vertexD, ha2, hb2, hc2, hre, specVert, Option.bind]
    simp [ha2, hb2, hc2]
  | some t4 =>
    obtain ⟨q4, h42⟩ := Option.isSome_iff_exists.mp (hd t4 (by simp))
    simp only [renderV, Option.toList, List.cons_append, List.nil_append, parseStep,
      vertexD, ha2, hb2, hc2, specVert]
    simp [optNum, ha2, hb2, hc2, h42]

theorem renderVB_headNotNum (vb : List VSpec) (rest : List Tok)
    (hrest : headNotNum rest) : headNotNum (renderVB vb ++ rest) := by
  cases vb with
  | nil => simpa [renderVB] using hrest
  | cons s vb =>
    intro t ht
    have : (renderVB (s :: vb) ++ rest).head? = some Tok.Vertex := rfl
    rw [this] at ht
    simp only [Option.mem_def, Option.some.injEq] at ht
    subst ht
    rfl

theorem parseFold_vblock (vb : List VSpec) (m : Model) (rest : List Tok)
    (hvb : ∀ s ∈ vb, specOk s) (hrest : headNotNum rest) :
    parseFold m (renderVB vb ++ rest) =
      parseFold (vb.foldl (fun acc s => applyElem acc (.VertexE (specVert s))) m) rest := by
  induction vb generalizing m with
  | nil => rfl
  | cons s vb ih =>
    have hs := hvb s (by simp)
    rw [show renderVB (s :: vb) ++ rest = renderV s ++ (renderVB vb ++ rest) from by
      simp [renderVB]]
    rw [parseFold_unfold,
      parseStep_vertex s (renderVB vb ++ rest) hs
        (fun _ => renderVB_headNotNum vb rest hrest)]
    exact ih (applyElem m (.VertexE (specVert s))) (fun s2 h2 => hvb s2 (by simp [h2]))

theorem vertex_material_comm (m : Model) (v : Vertex) (n : String) :
    applyElem (applyElem m (.MaterialE n)) (.VertexE v) =
      applyElem (applyElem m (.VertexE v)) (.MaterialE n) := rfl

theorem vbApply_material_comm (vb : List VSpec) (m : Model) (n : String) :
    vb.foldl (fun acc s => applyElem acc (.VertexE (specVert s)))
        (applyElem m (.MaterialE n)) =
      applyElem (vb.foldl (fun acc s => applyElem acc (.VertexE (specVert s))) m)
        (.MaterialE n) := by
  induction vb generalizing m with
  | nil => rfl
  | cons s vb ih =>
    simp only [List.foldl_cons]
    rw [vertex_material_comm]
    exact ih (applyElem m (.VertexE (specVert s)))

/-- C10 amended: moving a `usemtl` directive across an intervening block of
well-formed vertex declarations yields the identical parse result, provided
the token that follows the block is not a bare numeric literal (a trailing
number would be absorbed as the last declaration's optional w component in
one ordering but not the other; any keyword-led continuation satisfies the
proviso). -/
theorem c10_usemtl_reorder (vb : List VSpec) (m : Model) (name : String)
    (post : List Tok) (hvb : ∀ s ∈ vb, specOk s) (hpost : headNotNum post) :
    parseFold m (Tok.UseMaterial :: Tok.Str name :: (renderVB vb ++ post)) =
      parseFold m (renderVB vb ++ (Tok.UseMaterial :: Tok.Str name :: post)) := by
  have L : parseFold m (Tok.UseMaterial :: Tok.Str name :: (renderVB vb ++ post)) =
      parseFold (vb.foldl (fun acc s => applyElem acc (.VertexE (specVert s)))
        (applyElem m (.MaterialE name))) post := by
    rw [parseFold_unfold,
      show parseStep (Tok.UseMaterial :: Tok.Str name :: (renderVB vb ++ post)) =
        some (.MaterialE name, renderVB vb ++ post) from rfl]
    exact parseFold_vblock vb (applyElem m (.MaterialE name)) post hvb hpost
  have R : parseFold m (renderVB vb ++ (Tok.UseMaterial :: Tok.Str name :: post)) =
      parseFold (applyElem (vb.foldl (fun acc s => applyElem acc (.VertexE (specVert s))) m)
        (.MaterialE name)) post := by
    rw [parseFold_vblock vb m (Tok.UseMaterial :: Tok.Str name :: post) hvb
      (by intro t ht
          simp only [List.head?_cons, Option.mem_def, Option.some.injEq] at ht
          subst ht
          rfl)]
    rw [parseFold_unfold,
      show parseStep (Tok.UseMaterial :: Tok.Str name :: post) =
        some (.MaterialE name, post) from rfl]
  rw [L, R, vbApply_material_comm]

/-- Witness for C10 at a concrete one-vertex block. -/
theorem c10_usemtl_reorder_witness :
    parseFold M0 (Tok.UseMaterial :: Tok.Str ("mm") ::
        (renderVB [(Tok.IntT 1, Tok.IntT 2, Tok.IntT 3, none)] ++ [])) =
      parseFold M0 (renderVB [(Tok.IntT 1, Tok.IntT 2, Tok.IntT 3, none)] ++
        (Tok.UseMaterial :: Tok.Str ("mm") :: [])) := by
  exact c10_usemtl_reorder [(Tok.IntT 1, Tok.IntT 2, Tok.IntT 3, none)] M0 ("mm") []
    (by intro s hs
        simp only [List.mem_singleton] at hs
        subst hs
        exact ⟨rfl, rfl, rfl, by simp⟩)
    (by intro t ht
        simp at ht)

/-- C10 counterexample: with a stray numeric token after the vertex block,
moving `usemtl mm` from before to after the block changes the parse result —
in the first ordering the trailing `5` is absorbed as the vertex's w and the
later `usemtl zz` is still parsed ("zz" wins); in the second the fold stops
at the `5`, so the material stays "mm" and the models differ. -/
theorem c10_counterexample :
    load_obj ("usemtl mm\nv 1 2 3\n5\nusemtl zz\n") =
      .ok (objOk ("usemtl mm\nv 1 2 3\n5\nusemtl zz\n"))
    ∧ load_obj ("v 1 2 3\nusemtl mm\n5\nusemtl zz\n") =
      .ok (objOk ("v 1 2 3\nusemtl mm\n5\nusemtl zz\n"))
    ∧ (mapGet (objOk ("usemtl mm\nv 1 2 3\n5\nusemtl zz\n")).groups ("default")).map
        Group.material_name = some ("zz")
    ∧ (mapGet (objOk ("v 1 2 3\nusemtl mm\n5\nusemtl zz\n")).groups ("default")).map
        Group.material_name = some ("mm")
    ∧ objOk ("usemtl mm\nv 1 2 3\n5\nusemtl zz\n") ≠
        objOk ("v 1 2 3\nusemtl mm\n5\nusemtl zz\n") := by
  exact ⟨rfl, rfl, by decide, by decide, by decide⟩

/-- Characters that start no keyword of either table and match none of the
slash / numeric / comment / whitespace branches, so that only the fallback
branch can fire on them. -/
def plainChars : List Char := ['a', 'e', 'h', 'j', 'q', 'w', 'y', 'z']

theorem takeWhile_of_all {α : Type} (p : α → Bool) (l : List α)
    (h : ∀ c ∈ l, p c = true) : l.takeWhile p = l := by
  induction l with
  | nil => rfl
  | cons a l ih =>
    have ha := h a (by simp)
    simp [List.takeWhile_cons, ha, ih (fun c hc => h c (by simp [hc]))]

theorem dropWhile_of_all {α : Type} (p : α → Bool) (l : List α)
    (h : ∀ c ∈ l, p c = true) : l.dropWhile p = [] := by
  induction l with
  | nil => rfl
  | cons a l ih =>
    have ha := h a (by simp)
    simp [List.dropWhile_cons, ha, ih (fun c hc => h c (by simp [hc]))]

theorem takeWhile_append_stop {α : Type} (p : α → Bool) (w1 w2 : List α) (x : α)
    (h1 : ∀ c ∈ w1, p c = true) (hx : p x = false) :
    (w1 ++ x :: w2).takeWhile p = w1 ∧ (w1 ++ x :: w2).dropWhile p = x :: w2 := by
  induction w1 with
  | nil => constructor <;> simp [List.takeWhile_cons, List.dropWhile_cons, hx]
  | cons a w1 ih =>
    obtain ⟨iht, ihd⟩ := ih (fun c hc => h1 c (by simp [hc]))
    have ha := h1 a (by simp)
    constructor
    · simp [List.takeWhile_cons, ha, iht]
    · rw [List.cons_append, List.dropWhile_cons_of_pos ha]
      exact ihd

theorem fallbackB_all (stop s : List Char) (hne : s ≠ [])
    (h : ∀ c ∈ s, c ∉ stop) :
    fallbackB stop s = some (.Str (String.mk s), []) := by
  have ht : s.takeWhile (fun c => ¬ c ∈ stop) = s :=
    takeWhile_of_all _ s (fun c hc => by simp [h c hc])
  have hd : s.dropWhile (fun c => ¬ c ∈ stop) = [] :=
    dropWhile_of_all _ s (fun c hc => by simp [h c hc])
  unfold fallbackB
  rw [ht, hd, if_neg hne]

theorem fallbackB_stop_at (stop w1 w2 : List Char) (x : Char)
    (hne : w1 ≠ []) (h1 : ∀ c ∈ w1, c ∉ stop) (hx : x ∈ stop) :
    fallbackB stop (w1 ++ x :: w2) = some (.Str (String.mk w1), x :: w2) := by
  obtain ⟨ht, hd⟩ := takeWhile_append_stop (fun c => ¬ c ∈ stop) w1 w2 x
    (fun c hc => by simp [h1 c hc]) (by simp [hx])
  unfold fallbackB
  rw [ht, hd, if_neg hne]

theorem plain_not_objStop (c : Char) (hc : c ∈ plainChars) : c ∉ objStop := by
  simp only [plainChars, List.mem_cons, List.not_mem_nil, or_false] at hc
  rcases hc with rfl | rfl | rfl | rfl | rfl | rfl | rfl | rfl <;> decide

theorem plain_not_mtlStop (c : Char) (hc : c ∈ plainChars) : c ∉ mtlStop := by
  simp only [plainChars, List.mem_cons, List.not_mem_nil, or_false] at hc
  rcases hc with rfl | rfl | rfl | rfl | rfl | rfl | rfl | rfl <;> decide

theorem objCharStep_plain (c : Char) (r : List Char) (hc : c ∈ plainChars) :
    objCharStep (c :: r) = fallbackB objStop (c :: r) := by
  simp only [plainChars, List.mem_cons, List.not_mem_nil, or_false] at hc
  rcases hc with rfl | rfl | rfl | rfl | rfl | rfl | rfl | rfl <;> rfl

theorem mtlCharStep_plain (c : Char) (r : List Char) (hc : c ∈ plainChars) :
    mtlCharStep (c :: r) = fallbackB mtlStop (c :: r) := by
  simp only [plainChars, List.mem_cons, List.not_mem_nil, or_false] at hc
  rcases hc with rfl | rfl | rfl | rfl | rfl | rfl | rfl | rfl <;> rfl

theorem mtlCharStep_space (c2 : Char) (r : List Char) (hc : c2 ∈ plainChars) :
    mtlCharStep (' ' :: c2 :: r) = some (.Ignore, c2 :: r) := by
  simp only [plainChars, List.mem_cons, List.not_mem_nil, or_false] at hc
  rcases hc with rfl | rfl | rfl | rfl | rfl | rfl | rfl | rfl <;> rfl

/-- C4 amended: when no earlier branch matches, the two tokenizers do NOT
agree on where the fallback string token ends. The geometry tokenizer's
fallback (`is_not("\r\n")`) consumes to the end of the line — a word does not
stop at a space — while the material tokenizer's fallback (`is_not(" \r\n")`)
stops at a space (yet not at a tab). For nonempty words over characters no
other branch touches: the geometry tokenizer turns `w1 ++ " " ++ w2` into ONE
string token containing the space; the material tokenizer splits it into two;
and the material tokenizer keeps `w1 ++ "\t" ++ w2` as one token. -/
theorem c4_fallback_divergence (w1 w2 : List Char) (hw1 : w1 ≠ []) (hw2 : w2 ≠ [])
    (h1 : ∀ c ∈ w1, c ∈ plainChars) (h2 : ∀ c ∈ w2, c ∈ plainChars) :
    tokenizeObj (w1 ++ ' ' :: w2) = [Tok.Str (String.mk (w1 ++ ' ' :: w2))]
    ∧ tokenizeMtl (w1 ++ ' ' :: w2) = [Tok.Str (String.mk w1), Tok.Str (String.mk w2)]
    ∧ tokenizeMtl (w1 ++ '\t' :: w2) = [Tok.Str (String.mk (w1 ++ '\t' :: w2))] := by
  refine ⟨?_, ?_, ?_⟩
  · cases w1 with
    | nil => exact absurd rfl hw1
    | cons c1 w1 =>
      have hall : ∀ c ∈ c1 :: (w1 ++ ' ' :: w2), c ∉ objStop := by
        intro c hcm
        simp only [List.mem_cons, List.mem_append] at hcm
        rcases hcm with h | h | h | h
        · subst h; exact plain_not_objStop _ (h1 _ (by simp))
        · exact plain_not_objStop _ (h1 _ (by simp [h]))
        · subst h; decide
        · exact plain_not_objStop _ (h2 _ h)
      rw [tokenizeObj_unfold,
        show (c1 :: w1) ++ ' ' :: w2 = c1 :: (w1 ++ ' ' :: w2) from rfl,
        objCharStep_plain c1 _ (h1 c1 (by simp)),
        fallbackB_all objStop (c1 :: (w1 ++ ' ' :: w2)) (List.cons_ne_nil _ _) hall]
      rfl
  · cases w1 with
    | nil => exact absurd rfl hw1
    | cons c1 w1 =>
      cases w2 with
      | nil => exact absurd rfl hw2
      | cons c2 w2 =>
        have hp1 : ∀ c ∈ c1 :: w1, c ∉ mtlStop :=
          fun c hc => plain_not_mtlStop c (h1 c hc)
        have hp2 : ∀ c ∈ c2 :: w2, c ∉ mtlStop :=
          fun c hc => plain_not_mtlStop c (h2 c hc)
        rw [tokenizeMtl_unfold,
          show (c1 :: w1) ++ ' ' :: c2 :: w2 = c1 :: (w1 ++ ' ' :: c2 :: w2) from rfl,
          mtlCharStep_plain c1 _ (h1 c1 (by simp)),
          show c1 :: (w1 ++ ' ' :: c2 :: w2) = (c1 :: w1) ++ ' ' :: c2 :: w2 from rfl,
          fallbackB_stop_at mtlStop (c1 :: w1) (c2 :: w2) ' '
            (List.cons_ne_nil _ _) hp1 (by decide)]
        show Tok.Str (String.mk (c1 :: w1)) :: tokenizeMtl (' ' :: c2 :: w2) =
          [Tok.Str (String.mk (c1 :: w1)), Tok.Str (String.mk (c2 :: w2))]
        refine congrArg (fun l => Tok.Str (String.mk (c1 :: w1)) :: l) ?_
        rw [tokenizeMtl_unfold, mtlCharStep_space c2 w2 (h2 c2 (by simp))]
        show tokenizeMtl (c2 :: w2) = [Tok.Str (String.mk (c2 :: w2))]
        rw [tokenizeMtl_unfold, mtlCharStep_plain c2 w2 (h2 c2 (by simp)),
          fallbackB_all mtlStop (c2 :: w2) (List.cons_ne_nil _ _) hp2]
        rfl
  · cases w1 with
    | nil => exact absurd rfl hw1
    | cons c1 w1 =>
      have hall : ∀ c ∈ c1 :: (w1 ++ '\t' :: w2), c ∉ mtlStop := by
        intro c hcm
        simp only [List.mem_cons, List.mem_append] at hcm
        rcases hcm with h | h | h | h
        · subst h; exact plain_not_mtlStop _ (h1 _ (by simp))
        · exact plain_not_mtlStop _ (h1 _ (by simp [h]))
        · subst h; decide
        · exact plain_not_mtlStop _ (h2 _ h)
      rw [tokenizeMtl_unfold,
        show (c1 :: w1) ++ '\t' :: w2 = c1 :: (w1 ++ '\t' :: w2) from rfl,
        mtlCharStep_plain c1 _ (h1 c1 (by simp)),
        fallbackB_all mtlStop (c1 :: (w1 ++ '\t' :: w2)) (List.cons_ne_nil _ _) hall]
      rfl

/-- Witness for C4 at the one-letter words `a` and `z`. -/
theorem c4_fallback_divergence_witness :
    tokenizeObj (['a'] ++ ' ' :: ['z']) = [Tok.Str (String.mk (['a'] ++ ' ' :: ['z']))]
    ∧ tokenizeMtl (['a'] ++ ' ' :: ['z']) =
        [Tok.Str (String.mk ['a']), Tok.Str (String.mk ['z'])]
    ∧ tokenizeMtl (['a'] ++ '\t' :: ['z']) =
        [Tok.Str (String.mk (['a'] ++ '\t' :: ['z']))] := by
  exact c4_fallback_divergence ['a'] ['z'] (by decide) (by decide)
    (by intro c hc
        simp only [List.mem_singleton] at hc
        subst hc
        decide)
    (by intro c hc
        simp only [List.mem_singleton] at hc
        subst hc
        decide)

/-- C4 counterexample: the geometry tokenizer reads `ab cd` as the single
string token `"ab cd"` — the fallback run does not stop at the space — while
the material tokenizer splits it at the space; and the material tokenizer
does not stop at a tab. -/
theorem c4_counterexample :
    parse_obj ("ab cd") = .ok [Tok.Str ("ab cd")]
    ∧ tokenizeObj (("ab cd")).data ≠ [Tok.Str ("ab"), Tok.Str ("cd")]
    ∧ parse_mtl ("ab cd") = .ok [Tok.Str ("ab"), Tok.Str ("cd")]
    ∧ parse_mtl ("ab\tcd") = .ok [Tok.Str ("ab\tcd")] := by
  exact ⟨rfl, by decide, rfl, rfl⟩

end NObj
